import Mathlib

/-!
Verification of the open-addressing dictionary and string hashing of the
cloakedsnake repository (a CPython fork exploring tabulation hashing and
linear probing).  The definitions below are shallow embeddings of the C
functions in `Objects/dictobject.c` and `Objects/stringobject.c`
(`src/unnamed/part_001`): machine integers (`size_t`, `long`) are modelled
as natural numbers reduced modulo `2^64` wherever the C arithmetic wraps,
`NULL`-able outcomes as `Option`, and the `PyDictObject` as an explicit
record.  Reference counting, garbage collection and the Python object
protocol are outside the modelled core; keys and values are abstracted to
natural numbers compared by value (the C code's pointer-identity fast path
`ep->me_key == key` is subsumed by value equality).
-/

/-! ## Definitions: shallow embedding of the C code -/

/-! ### Probe sequences (`lookdict` / `lookdict_string` / `insertdict_clean`)

The C code computes `i = (size_t)hash & mask` and then, in the default
(perturbation) build, iterates
`for (perturb = hash; ; perturb >>= PERTURB_SHIFT) { i = (i << 2) + i + perturb + 1; ep = &ep0[i & mask]; }`
with `i` and `perturb` of type `size_t` (64-bit, wrapping).  In the
`LINEAR_PROBING` build the update is `i = i + 1`.  `probeCode`/`linearCode`
model this 64-bit state faithfully; `probeIdx`/`linearIdx` are the masked
projections, proved equal to the code versions whenever the table size
divides `2^64`. -/

def PERTURB_SHIFT : Nat := 5

def W64 : Nat := 2 ^ 64

/-- The 64-bit state `(i, perturb)` of the perturbation probe loop after `n`
update steps, for initial hash `h` (reduced to `size_t`) and table `mask`. -/
def probeCode (h mask : Nat) : Nat → Nat × Nat
  | 0 => (h % W64 % (mask + 1), h % W64)
  | n + 1 =>
    let s := probeCode h mask n
    ((5 * s.1 + s.2 + 1) % W64, s.2 / 2 ^ PERTURB_SHIFT)

/-- Table index probed at attempt `n` by the perturbation strategy
(`ep0[i & mask]` in the C loop). -/
def probeCodeIdx (h mask n : Nat) : Nat := (probeCode h mask n).1 % (mask + 1)

/-- The 64-bit counter `i` of the `LINEAR_PROBING` loop after `n` steps. -/
def linearCode (h mask : Nat) : Nat → Nat
  | 0 => h % W64 % (mask + 1)
  | n + 1 => (linearCode h mask n + 1) % W64

/-- Table index probed at attempt `n` by the linear strategy. -/
def linearCodeIdx (h mask n : Nat) : Nat := linearCode h mask n % (mask + 1)

/-- Masked projection of the perturbation probe sequence: the slot index
visited at attempt `n`.  The perturb value consumed by step `n → n+1` is
`hash >> (PERTURB_SHIFT * n)`. -/
def probeIdx (h mask : Nat) : Nat → Nat
  | 0 => h % (mask + 1)
  | n + 1 => (5 * probeIdx h mask n + h / 2 ^ (PERTURB_SHIFT * n) + 1) % (mask + 1)

/-- The `n`-th iterate of the pure recurrence `j ↦ (5*j + 1) % S`. -/
def lcgIter (S j : Nat) : Nat → Nat
  | 0 => j % S
  | n + 1 => (5 * lcgIter S j n + 1) % S

/-- The `(5^n - 1) / 4`, defined by the recurrence `c_{n+1} = 5*c_n + 1`. -/
def lcgC : Nat → Nat
  | 0 => 0
  | n + 1 => 5 * lcgC n + 1

/-! ### The dictionary object (`PyDictObject`)

A slot (`PyDictEntry`) is `Empty` (`me_key == NULL`), a tombstone
(`me_key == dummy`, `me_value == NULL`), or occupied
(`me_key`, `me_hash`, `me_value` all set).  The dict record carries
`ma_mask`, `ma_fill`, `ma_used` and the slot array `ma_table`.  Keys,
hashes and values are abstracted to naturals; the C pointer-identity test
`ep->me_key == key` becomes value equality, which also subsumes the
`me_hash == hash && _PyString_Eq(...)` test of `lookdict_string`.
The unbounded C probe loops carry an explicit fuel here
(`hash + mask + 3`), proved sufficient whenever an Empty slot exists;
`none` results model the unreachable probe-exhaustion state. -/

inductive Slot where
  | empty : Slot
  | dummy : Slot
  | occupied (key hash value : Nat) : Slot
deriving DecidableEq

def Slot.isOccupied : Slot → Bool
  | .occupied _ _ _ => true
  | _ => false

structure Dict where
  mask : Nat
  fill : Nat
  used : Nat
  table : List Slot
deriving DecidableEq

def PyDict_MINSIZE : Nat := 8

/-- The `PyDict_New` / `EMPTY_TO_MINSIZE`: a fresh table of the minimum size
with `fill = used = 0`. -/
def PyDict_New : Dict :=
  { mask := PyDict_MINSIZE - 1, fill := 0, used := 0,
    table := List.replicate PyDict_MINSIZE Slot.empty }

/-- The probe loop of `lookdict`/`lookdict_string` starting at attempt `n`
with the remembered `freeslot`.  Returns the index of the entry the C
function returns a pointer to.  On an Empty slot it returns
`freeslot == NULL ? ep : freeslot`; a tombstone is remembered in `freeslot`
(first one only); an occupied slot is returned iff its key matches. -/
def lookLoop (t : List Slot) (mask key hash : Nat) : Nat → Nat → Option Nat → Option Nat
  | 0, _, _ => none
  | fuel + 1, n, freeslot =>
    match t.getD (probeIdx hash mask n) Slot.empty with
    | Slot.empty => some (freeslot.getD (probeIdx hash mask n))
    | Slot.dummy =>
        lookLoop t mask key hash fuel (n + 1)
          (if freeslot = none then some (probeIdx hash mask n) else freeslot)
    | Slot.occupied k _ _ =>
        if k = key then some (probeIdx hash mask n)
        else lookLoop t mask key hash fuel (n + 1) freeslot

/-- The `lookdict` (and `lookdict_string` restricted to string keys): the index
of the returned entry, `none` only on fuel exhaustion (unreachable when an
Empty slot exists). -/
def lookdict (d : Dict) (key hash : Nat) : Option Nat :=
  lookLoop d.table d.mask key hash (hash + d.mask + 3) 0 none

/-- The `insertdict`: look the key up; if the entry has a value, replace the
value (`me_key`/`me_hash` kept); otherwise write the new entry, bumping
`ma_fill` only when a virgin (Empty) slot is consumed, and `ma_used`
always. -/
def insertdict (d : Dict) (key hash value : Nat) : Option Dict :=
  match lookdict d key hash with
  | none => none
  | some i =>
    match d.table.getD i Slot.empty with
    | Slot.occupied k h _ =>
        some { d with table := d.table.set i (Slot.occupied k h value) }
    | Slot.empty =>
        some { d with table := d.table.set i (Slot.occupied key hash value),
                      fill := d.fill + 1, used := d.used + 1 }
    | Slot.dummy =>
        some { d with table := d.table.set i (Slot.occupied key hash value),
                      used := d.used + 1 }

/-- Probe loop of `insertdict_clean`: first Empty slot along the probe
sequence (the target table never contains tombstones when this is used,
and the loop only tests `me_key != NULL`). -/
def cleanLoop (t : List Slot) (mask hash : Nat) : Nat → Nat → Option Nat
  | 0, _ => none
  | fuel + 1, n =>
    match t.getD (probeIdx hash mask n) Slot.empty with
    | Slot.empty => some (probeIdx hash mask n)
    | _ => cleanLoop t mask hash fuel (n + 1)

/-- The `insertdict_clean`: insert a key known to be absent into a table with
no tombstones; writes the first Empty probe slot, bumps `ma_fill` and
`ma_used`. -/
def insertdict_clean (d : Dict) (key hash value : Nat) : Option Dict :=
  match cleanLoop d.table d.mask hash (hash + d.mask + 3) 0 with
  | none => none
  | some i =>
      some { d with table := d.table.set i (Slot.occupied key hash value),
                    fill := d.fill + 1, used := d.used + 1 }

/-- The copy loop of `dictresize`: walk the old table, reinserting active
entries and dropping tombstones, with the countdown `i` initialised to the
old `ma_fill` (`for (ep = oldtable; i > 0; ep++)`). -/
def rehashLoop (d : Dict) : List Slot → Nat → Option Dict
  | _, 0 => some d
  | [], _ + 1 => some d
  | s :: rest, i + 1 =>
    match s with
    | Slot.occupied k h v =>
      match insertdict_clean d k h v with
      | none => none
      | some e => rehashLoop e rest i
    | Slot.dummy => rehashLoop d rest i
    | Slot.empty => rehashLoop d rest (i + 1)

/-- The size-search loop of `dictresize`:
`for (newsize = PyDict_MINSIZE; newsize <= minused && newsize > 0; newsize <<= 1);`
(the `newsize > 0` overflow guard of the C `Py_ssize_t` cannot fire in the
idealised unbounded model, and the positivity test is kept as the loop
guard). -/
def newsizeLoop : Nat → Nat → Nat → Nat
  | 0, newsize, _ => newsize
  | fuel + 1, newsize, minused =>
    if 0 < newsize ∧ newsize ≤ minused then newsizeLoop fuel (newsize * 2) minused
    else newsize

def newsizeFor (minused : Nat) : Nat := newsizeLoop (minused + 1) PyDict_MINSIZE minused

/-- The `dictresize`: find the smallest table size greater than `minused`,
allocate (modelled by the `alloc` oracle — `false` makes `PyMem_NEW`
return `NULL`, upon which the function reports failure with the dict
untouched), then rebuild through `insertdict_clean`.  When the new size is
the minimum, the inline `ma_smalltable` is reused and no allocation
happens; if additionally the table is already the small table and has no
tombstones, the function returns at once.  The `Bool` in the result is the
C return status (`true` = 0, `false` = -1). -/
def dictresize (alloc : Bool) (d : Dict) (minused : Nat) : Option (Dict × Bool) :=
  if newsizeFor minused = PyDict_MINSIZE ∧ d.mask + 1 = PyDict_MINSIZE ∧ d.fill = d.used then
    some (d, true)
  else if newsizeFor minused ≠ PyDict_MINSIZE ∧ alloc = false then
    some (d, false)
  else
    match rehashLoop
        { mask := newsizeFor minused - 1, fill := 0, used := 0,
          table := List.replicate (newsizeFor minused) Slot.empty } d.table d.fill with
    | none => none
    | some e => some (e, true)

/-- The `PyDict_SetItem`: insert, then grow if the insert added a key and
pushed the load factor to 2/3 (`ma_fill*3 >= (ma_mask+1)*2`), with target
`(ma_used > 50000 ? 2 : 4) * ma_used`. -/
def PyDict_SetItem (d : Dict) (key hash value : Nat) : Option Dict :=
  match insertdict d key hash value with
  | none => none
  | some e =>
    if ¬ (e.used > d.used ∧ e.fill * 3 ≥ (e.mask + 1) * 2) then some e
    else
      match dictresize true e ((if e.used > 50000 then 2 else 4) * e.used) with
      | none => none
      | some (e2, _) => some e2

/-- The `PyDict_GetItem` (the probing core, hashing and exception plumbing
modelled separately below): `ep->me_value`, which is `NULL` unless the
returned entry is occupied. -/
def PyDict_GetItem (d : Dict) (key hash : Nat) : Option Nat :=
  match lookdict d key hash with
  | none => none
  | some i =>
    match d.table.getD i Slot.empty with
    | Slot.occupied _ _ v => some v
    | _ => none

/-- The `PyDict_DelItem`: look up; `me_value == NULL` is a `KeyError`
(status `false`, dict unchanged); otherwise the entry key becomes the
dummy sentinel, the value is cleared and `ma_used` drops by one
(`ma_fill` untouched). -/
def PyDict_DelItem (d : Dict) (key hash : Nat) : Option (Dict × Bool) :=
  match lookdict d key hash with
  | none => none
  | some i =>
    match d.table.getD i Slot.empty with
    | Slot.occupied _ _ _ =>
        some ({ d with table := d.table.set i Slot.dummy, used := d.used - 1 }, true)
    | _ => some (d, false)

/-! ### Bookkeeping invariants

`ma_fill` counts non-Empty slots (occupied + tombstones), `ma_used` counts
occupied slots, the table length is `ma_mask + 1`, a power of two of at
least the minimum size, and `ma_fill ≤ ma_mask` (the asserted
at-least-one-Empty-slot invariant of `PyDict_SetItem`). -/

def Slot.nonEmpty : Slot → Bool
  | .empty => false
  | _ => true

def nonEmptyCount (t : List Slot) : Nat := t.countP Slot.nonEmpty

def occCount (t : List Slot) : Nat := t.countP Slot.isOccupied

/-- Structural bookkeeping that holds even in the transient moment inside
`PyDict_SetItem` after an insert has consumed the last Empty slot and
before the mandatory resize. -/
def PreInv (d : Dict) : Prop :=
  (∃ k, 3 ≤ k ∧ d.mask + 1 = 2 ^ k) ∧
  d.table.length = d.mask + 1 ∧
  d.fill = nonEmptyCount d.table ∧
  d.used = occCount d.table

def DictInv (d : Dict) : Prop :=
  PreInv d ∧ d.fill ≤ d.mask

/-- Slot visited at probe attempt `n`. -/
def probeSlot (t : List Slot) (mask hash n : Nat) : Slot :=
  t.getD (probeIdx hash mask n) Slot.empty

/-- The (key, hash, value) triples stored in occupied slots, in slot
order. -/
def entries (t : List Slot) : List (Nat × Nat × Nat) :=
  t.filterMap (fun s => match s with
    | Slot.occupied k h v => some (k, h, v)
    | _ => none)

/-- One public mutating operation of the dictionary: `PyDict_SetItem`,
`PyDict_DelItem`, or a caller-initiated `dictresize` (the repository calls
it from `PyDict_SetItem`, `_PyDict_NewPresized` and `PyDict_Merge`, always
with `minused ≥ ma_used`). -/
inductive DictStep : Dict → Dict → Prop
  | set {d e : Dict} (key hash value : Nat) :
      PyDict_SetItem d key hash value = some e → DictStep d e
  | del {d e : Dict} (key hash : Nat) (ok : Bool) :
      PyDict_DelItem d key hash = some (e, ok) → DictStep d e
  | resize {d e : Dict} (minused : Nat) (ok : Bool) :
      d.used ≤ minused → dictresize true d minused = some (e, ok) → DictStep d e

/-- States reachable from a fresh table by insert / delete / resize. -/
inductive DictReachable : Dict → Prop
  | base : DictReachable PyDict_New
  | step {d e : Dict} : DictReachable d → DictStep d e → DictReachable e

/-- The entry at index `j` is reachable by probing with hash `h`. -/
def FindsAt (t : List Slot) (mask h j : Nat) : Prop :=
  ∃ n, probeIdx h mask n = j ∧ ∀ m < n, probeSlot t mask h m ≠ Slot.empty

/-- Some slot holds key `k`. -/
def HasKey (t : List Slot) (k : Nat) : Prop :=
  ∃ j < t.length, ∃ h v, t.getD j Slot.empty = Slot.occupied k h v

/-- Hash agreement, key uniqueness and findability of every entry. -/
def TablePart (d : Dict) (hf : Nat → Nat) : Prop :=
  (∀ j k h v, d.table.getD j Slot.empty = Slot.occupied k h v → h = hf k) ∧
  (∀ i j ki hi vi kj hj vj, i < d.table.length → j < d.table.length →
    d.table.getD i Slot.empty = Slot.occupied ki hi vi →
    d.table.getD j Slot.empty = Slot.occupied kj hj vj → ki = kj → i = j) ∧
  (∀ j k h v, j < d.table.length → d.table.getD j Slot.empty = Slot.occupied k h v →
    FindsAt d.table d.mask h j)

def DictWF (d : Dict) (hf : Nat → Nat) : Prop :=
  DictInv d ∧ TablePart d hf

/-! ### String hashing (`string_hash`, `tabu_hash`)

`long` values are modelled by their 64-bit two's-complement bit pattern as
a natural below `2^64`; `-1` is `MINUS1`, `-2` is `MINUS2`.  The eight
256-entry random tables of `tabu_hash` are abstracted into a parameter
`tables i b` (the theorems hold for every choice, in particular the
constants baked into the C file). -/

def MINUS1 : Nat := W64 - 1

def MINUS2 : Nat := W64 - 2

/-- Byte `i` of a 64-bit value: `bytes[i] = x & (256-1)` after `i` shifts
`x = x >> 8`. -/
def byteAt (x i : Nat) : Nat := x / 2 ^ (8 * i) % 256

/-- The `tabu_hash`: XOR of one entry from each of the eight tables, indexed
by the corresponding byte of the input. -/
def tabu_hash (tables : Nat → Nat → Nat) (x : Nat) : Nat :=
  tables 0 (byteAt x 0) ^^^ tables 1 (byteAt x 1) ^^^ tables 2 (byteAt x 2) ^^^
  tables 3 (byteAt x 3) ^^^ tables 4 (byteAt x 4) ^^^ tables 5 (byteAt x 5) ^^^
  tables 6 (byteAt x 6) ^^^ tables 7 (byteAt x 7)

/-- One step of the polynomial loop: `x = (1000003*x) ^ *p++` with the
multiplication wrapping at 64 bits. -/
def polyStep (x c : Nat) : Nat := (1000003 * x) % W64 ^^^ c

def polyFold (x : Nat) : List Nat → Nat
  | [] => x
  | c :: rest => polyFold (polyStep x c) rest

/-- The `string_hash` before the final `-1` substitution (`x` right after
`x ^= _Py_HashSecret.suffix`); the empty string short-circuits to 0. -/
def string_hash_raw (pfx sfx : Nat) (tabulation : Bool) (tables : Nat → Nat → Nat)
    (s : List Nat) : Nat :=
  match s with
  | [] => 0
  | c0 :: _ =>
    let x1 := pfx ^^^ c0 * 2 ^ 7
    let x2 := polyFold x1 s
    let x3 := if tabulation then tabu_hash tables x2 else x2
    x3 ^^^ s.length ^^^ sfx

/-- The `string_hash`: the cached-hash fast path aside, the hash of a byte
string under secrets `pfx`/`sfx`, with the `TABULATION` build flag as a
parameter, and `-1` replaced by `-2`. -/
def string_hash (pfx sfx : Nat) (tabulation : Bool) (tables : Nat → Nat → Nat)
    (s : List Nat) : Nat :=
  match s with
  | [] => 0
  | _ :: _ =>
    if string_hash_raw pfx sfx tabulation tables s = MINUS1 then MINUS2
    else string_hash_raw pfx sfx tabulation tables s

/-! ### Dictionary iterators (`dictiterobject`, `dictiter_iternextkey`) -/

structure dictiterobject where
  active : Bool      -- di_dict != NULL
  di_used : Int
  di_pos : Int
  len : Int
deriving DecidableEq

inductive IterResult where
  | yield (key : Nat) : IterResult
  | exhausted : IterResult
  | sizeError : IterResult
deriving DecidableEq

/-- The `dictiter_new`. -/
def dictiter_new (d : Dict) : dictiterobject :=
  { active := true, di_used := (d.used : Int), di_pos := 0, len := (d.used : Int) }

/-- The scan `while (i <= mask && ep[i].me_value == NULL) i++;`
(fuel-bounded; `mask + 2 - i` steps always suffice). -/
def iterScan (t : List Slot) (mask : Nat) : Nat → Nat → Nat
  | 0, i => i
  | fuel + 1, i =>
    if i ≤ mask ∧ (t.getD i Slot.empty).isOccupied = false then
      iterScan t mask fuel (i + 1)
    else i

/-- The `dictiter_iternextkey`: `sizeError` models the RuntimeError
"dictionary changed size during iteration" (with `di_used := -1` making
the error sticky), `exhausted` a plain `NULL` return with `di_dict`
cleared.  The final wildcard is unreachable: the scan only stops inside
the table on an occupied slot. -/
def dictiter_iternextkey (d : Dict) (it : dictiterobject) : IterResult × dictiterobject :=
  if it.active = false then (IterResult.exhausted, it)
  else if it.di_used ≠ (d.used : Int) then
    (IterResult.sizeError, { it with di_used := -1 })
  else if it.di_pos < 0 then (IterResult.exhausted, { it with active := false })
  else
    match d.table.getD (iterScan d.table d.mask (d.mask + 2 - it.di_pos.toNat)
        it.di_pos.toNat) Slot.empty,
      iterScan d.table d.mask (d.mask + 2 - it.di_pos.toNat) it.di_pos.toNat with
    | Slot.occupied k _ _, i =>
      if i ≤ d.mask then
        (IterResult.yield k, { it with di_pos := (i : Int) + 1, len := it.len - 1 })
      else (IterResult.exhausted, { it with active := false, di_pos := (i : Int) + 1 })
    | _, i => (IterResult.exhausted, { it with active := false, di_pos := (i : Int) + 1 })

/-- Keys yielded by repeatedly calling `dictiter_iternextkey`. -/
def iterRun (d : Dict) (it : dictiterobject) : Nat → List Nat
  | 0 => []
  | fuel + 1 =>
    match dictiter_iternextkey d it with
    | (IterResult.yield k, it2) => k :: iterRun d it2 fuel
    | _ => []

/-- Keys of the occupied slots in slot order. -/
def occupiedKeys (t : List Slot) : List Nat :=
  t.filterMap (fun s => match s with
    | Slot.occupied k _ _ => some k
    | _ => none)

/-- The `PyDict_GetItem` with its exception plumbing (lines 5893–5936): the
first component is the returned object, the second the thread's exception
state after the call.  `hashFails` models `PyObject_Hash` returning `-1`
with an exception set (the function clears it and returns `NULL`);
`cmpRaises` models a key comparison raising inside `ma_lookup`, which then
returns `NULL` (with a pending caller exception the error is dropped by
`PyErr_Restore`, otherwise `PyErr_Clear` runs); `pending` is the caller's
already-set exception, saved with `PyErr_Fetch` and restored with
`PyErr_Restore` around the lookup. -/
def PyDict_GetItem_full (d : Dict) (key hash : Nat) (hashFails cmpRaises : Bool)
    (pending : Option Nat) : Option Nat × Option Nat :=
  if hashFails then (none, none)
  else
    match pending with
    | some e =>
        if cmpRaises then (none, some e)
        else (PyDict_GetItem d key hash, some e)
    | none =>
        if cmpRaises then (none, none)
        else (PyDict_GetItem d key hash, none)

/-- The table produced by `PyDict_SetItem(new dict, 3, hash 3, 42)`. -/
def D1 : Dict :=
  { mask := 7, fill := 1, used := 1,
    table := [Slot.empty, Slot.empty, Slot.empty, Slot.occupied 3 3 42,
              Slot.empty, Slot.empty, Slot.empty, Slot.empty] }

/-- A size-8 table with 3 live keys and 2 tombstones: inserting a fourth
key makes `ma_fill = 6`, so `fill*3 = 18 ≥ 16 = (mask+1)*2` triggers a
grow with target `4 * ma_used = 16`. -/
def growCexDict : Dict :=
  { mask := 7, fill := 5, used := 3,
    table := [Slot.occupied 10 0 0, Slot.occupied 11 1 0, Slot.dummy, Slot.dummy,
              Slot.empty, Slot.occupied 12 5 0, Slot.empty, Slot.empty] }

/-! ## Theorems -/

theorem probeIdx_lt (h mask n : Nat) : probeIdx h mask n < mask + 1 := by
  cases n <;> exact Nat.mod_lt _ (Nat.succ_pos mask)

theorem probeCode_snd (h mask n : Nat) :
    (probeCode h mask n).2 = h % W64 / 2 ^ (PERTURB_SHIFT * n) := by
  induction n with
  | zero => simp [probeCode]
  | succ n ih =>
    show (probeCode h mask n).2 / 2 ^ PERTURB_SHIFT = _
    rw [ih, Nat.div_div_eq_div_mul, ← pow_add, Nat.mul_succ]

theorem probeCodeIdx_eq (h mask : Nat) (hdvd : mask + 1 ∣ W64) (n : Nat) :
    probeCodeIdx h mask n = probeIdx (h % W64) mask n := by
  induction n with
  | zero => simp [probeCodeIdx, probeCode, probeIdx, Nat.mod_mod_of_dvd _ hdvd]
  | succ n ih =>
    have hs : (probeCode h mask n).1 ≡ probeIdx (h % W64) mask n [MOD mask + 1] := by
      unfold Nat.ModEq
      rw [Nat.mod_eq_of_lt (probeIdx_lt _ _ _)]
      exact ih
    have hstep : 5 * (probeCode h mask n).1 + (probeCode h mask n).2 + 1
        ≡ 5 * probeIdx (h % W64) mask n + h % W64 / 2 ^ (PERTURB_SHIFT * n) + 1
          [MOD mask + 1] := by
      rw [probeCode_snd]
      exact ((hs.mul_left 5).add_right _).add_right 1
    simp only [probeCodeIdx, probeCode]
    rw [Nat.mod_mod_of_dvd _ hdvd]
    exact hstep

theorem linearCodeIdx_eq (h mask : Nat) (hdvd : mask + 1 ∣ W64) (n : Nat) :
    linearCodeIdx h mask n = (h % (mask + 1) + n) % (mask + 1) := by
  induction n with
  | zero => simp [linearCodeIdx, linearCode, Nat.mod_mod_of_dvd _ hdvd]
  | succ n ih =>
    simp only [linearCodeIdx, linearCode] at *
    rw [Nat.mod_mod_of_dvd _ hdvd, Nat.add_mod, ih, ← Nat.add_mod, ← Nat.add_assoc]

theorem lcgC_eq (n : Nat) : 4 * lcgC n + 1 = 5 ^ n := by
  induction n with
  | zero => rfl
  | succ n ih => simp only [lcgC, pow_succ]; omega

theorem lcgIter_lt (S j n : Nat) (hS : 0 < S) : lcgIter S j n < S := by
  cases n <;> exact Nat.mod_lt _ hS

theorem lcgIter_closed (S j n : Nat) :
    lcgIter S j n = (5 ^ n * j + lcgC n) % S := by
  induction n with
  | zero => simp [lcgIter, lcgC]
  | succ n ih =>
    have h5 : (5 : Nat) ^ (n + 1) * j + lcgC (n + 1) = 5 * (5 ^ n * j + lcgC n) + 1 := by
      simp only [lcgC, pow_succ]; ring
    rw [lcgIter, ih, h5]
    exact ((Nat.mod_modEq _ _).mul_left 5).add_right 1

theorem five_pow_two_pow (m : Nat) :
    ∃ u, u % 2 = 1 ∧ 5 ^ 2 ^ m = 1 + 2 ^ (m + 2) * u := by
  induction m with
  | zero => exact ⟨1, rfl, rfl⟩
  | succ m ih =>
    obtain ⟨u, hu, heq⟩ := ih
    refine ⟨u + 2 ^ (m + 1) * u ^ 2, ?_, ?_⟩
    · obtain ⟨t, ht⟩ : 2 ∣ 2 ^ (m + 1) := dvd_pow_self 2 (Nat.succ_ne_zero m)
      have : u + 2 ^ (m + 1) * u ^ 2 = u + 2 * (t * u ^ 2) := by rw [ht]; ring
      omega
    · have hsq : 5 ^ 2 ^ (m + 1) = (5 ^ 2 ^ m) ^ 2 := by
        rw [← pow_mul, pow_succ, Nat.mul_comm]
      have e1 : 2 * 2 ^ (m + 2) = 2 ^ (m + 3) := by rw [pow_succ]; ring
      have e2 : 2 ^ (m + 2) * 2 ^ (m + 2) = 2 ^ (m + 3) * 2 ^ (m + 1) := by
        rw [← pow_add, ← pow_add]
        congr 1
        omega
      rw [hsq, heq]
      calc (1 + 2 ^ (m + 2) * u) ^ 2
          = 1 + 2 * 2 ^ (m + 2) * u + 2 ^ (m + 2) * 2 ^ (m + 2) * u ^ 2 := by ring
        _ = 1 + 2 ^ (m + 3) * u + 2 ^ (m + 3) * 2 ^ (m + 1) * u ^ 2 := by rw [e1, e2]
        _ = 1 + 2 ^ (m + 3) * (u + 2 ^ (m + 1) * u ^ 2) := by ring

theorem one_add_pow_expand (t b : Nat) :
    ∃ C, (1 + t) ^ b = 1 + b * t + t ^ 2 * C := by
  induction b with
  | zero => exact ⟨0, by ring⟩
  | succ b ih =>
    obtain ⟨C, hC⟩ := ih
    refine ⟨C + b + t * C, ?_⟩
    rw [pow_succ, hC]
    ring

theorem five_pow_sub_one (d : Nat) (hd : 0 < d) :
    ∃ a w, w % 2 = 1 ∧ 2 ^ a ≤ d ∧ 5 ^ d = 1 + 2 ^ (a + 2) * w := by
  obtain ⟨a, b, hb, hd_eq⟩ := Nat.exists_eq_two_pow_mul_odd hd.ne'
  obtain ⟨u, hu, hequ⟩ := five_pow_two_pow a
  obtain ⟨C, hC⟩ := one_add_pow_expand (2 ^ (a + 2) * u) b
  refine ⟨a, b * u + 2 ^ (a + 2) * u ^ 2 * C, ?_, ?_, ?_⟩
  · obtain ⟨t, ht⟩ : 2 ∣ 2 ^ (a + 2) := dvd_pow_self 2 (Nat.succ_ne_zero (a + 1))
    obtain ⟨s, hs⟩ := hb
    have : b * u + 2 ^ (a + 2) * u ^ 2 * C = (2 * s + 1) * u + 2 * (t * (u ^ 2 * C)) := by
      rw [ht, hs]; ring
    rw [this]
    have h1 : (2 * s + 1) * u = 2 * (s * u) + u := by ring
    omega
  · rw [hd_eq]
    calc 2 ^ a = 2 ^ a * 1 := (Nat.mul_one _).symm
      _ ≤ 2 ^ a * b := Nat.mul_le_mul_left _ hb.pos
  · rw [hd_eq, pow_mul, hequ, hC]
    ring

theorem two_pow_not_dvd_five_pow_sub_one (k d : Nat) (hd : 0 < d) (hdk : d < 2 ^ k) :
    ¬ (2 ^ (k + 2) ∣ 5 ^ d - 1) := by
  obtain ⟨a, w, hw, hale, heq⟩ := five_pow_sub_one d hd
  have hsub : 5 ^ d - 1 = 2 ^ (a + 2) * w := by omega
  intro hdvd
  rw [hsub] at hdvd
  have hak : a < k := by
    by_contra hak
    have : 2 ^ k ≤ 2 ^ a := Nat.pow_le_pow_right (by norm_num) (by omega)
    omega
  have hsplit : 2 ^ (k + 2) = 2 ^ (a + 2) * 2 ^ (k - a) := by
    rw [← pow_add]
    congr 1
    omega
  rw [hsplit] at hdvd
  have hwd : 2 ^ (k - a) ∣ w :=
    (Nat.mul_dvd_mul_iff_left (Nat.pos_pow_of_pos (a + 2) (by norm_num))).mp hdvd
  have h2w : 2 ∣ w := dvd_trans (dvd_pow_self 2 (by omega : k - a ≠ 0)) hwd
  omega

theorem lcgIter_ne (k j m d : Nat) (hd : 0 < d) (hdk : d < 2 ^ k) :
    lcgIter (2 ^ k) j m ≠ lcgIter (2 ^ k) j (m + d) := by
  intro hEq
  rw [lcgIter_closed, lcgIter_closed] at hEq
  have hmod : 5 ^ m * j + lcgC m ≡ 5 ^ (m + d) * j + lcgC (m + d) [MOD 2 ^ k] := hEq
  have hmod4 : 4 * (5 ^ m * j + lcgC m) ≡ 4 * (5 ^ (m + d) * j + lcgC (m + d))
      [MOD 2 ^ (k + 2)] := by
    have h := hmod.mul_left' 4
    have h4 : 4 * 2 ^ k = 2 ^ (k + 2) := by rw [pow_succ, pow_succ]; ring
    rwa [h4] at h
  have key : ∀ n, 4 * (5 ^ n * j + lcgC n) + 1 = 5 ^ n * (4 * j + 1) := by
    intro n
    calc 4 * (5 ^ n * j + lcgC n) + 1 = (4 * lcgC n + 1) + 4 * (5 ^ n * j) := by ring
      _ = 5 ^ n + 4 * (5 ^ n * j) := by rw [lcgC_eq]
      _ = 5 ^ n * (4 * j + 1) := by ring
  have hmod1 : 5 ^ m * (4 * j + 1) ≡ 5 ^ (m + d) * (4 * j + 1) [MOD 2 ^ (k + 2)] := by
    have h := hmod4.add_right 1
    rwa [key m, key (m + d)] at h
  -- peel off the shared odd factor `5 ^ m * (4*j+1)`
  have h5d : 1 ≤ 5 ^ d := Nat.one_le_pow _ _ (by norm_num)
  have hsplit : 5 ^ (m + d) * (4 * j + 1)
      = 5 ^ m * (4 * j + 1) * (5 ^ d - 1) + 5 ^ m * (4 * j + 1) := by
    have h5 : 5 ^ (m + d) = 5 ^ m * ((5 ^ d - 1) + 1) := by
      rw [Nat.sub_add_cancel h5d, pow_add]
    rw [h5]
    ring
  rw [hsplit] at hmod1
  have hz : (0 : Nat) + 5 ^ m * (4 * j + 1) ≡
      5 ^ m * (4 * j + 1) * (5 ^ d - 1) + 5 ^ m * (4 * j + 1) [MOD 2 ^ (k + 2)] := by
    rwa [Nat.zero_add]
  have hdvd : 2 ^ (k + 2) ∣ 5 ^ m * (4 * j + 1) * (5 ^ d - 1) :=
    (Nat.modEq_zero_iff_dvd.mp (hz.add_right_cancel' _).symm)
  have hAodd : Odd (5 ^ m * (4 * j + 1)) :=
    Odd.mul (Odd.pow (by decide)) ⟨2 * j, by ring⟩
  have hcop : Nat.Coprime (2 ^ (k + 2)) (5 ^ m * (4 * j + 1)) :=
    Nat.Coprime.pow_left _ (Nat.coprime_two_left.mpr hAodd)
  exact two_pow_not_dvd_five_pow_sub_one k d hd hdk (hcop.dvd_of_dvd_mul_left hdvd)

theorem lcgIter_injOn (k j : Nat) :
    ∀ m n, m < 2 ^ k → n < 2 ^ k → lcgIter (2 ^ k) j m = lcgIter (2 ^ k) j n → m = n := by
  have aux : ∀ m n, m < n → n < 2 ^ k → lcgIter (2 ^ k) j m ≠ lcgIter (2 ^ k) j n := by
    intro m n hmn hn hEq
    have hsum : m + (n - m) = n := by omega
    exact lcgIter_ne k j m (n - m) (by omega) (by omega) (by rw [hsum]; exact hEq)
  intro m n hm hn hEq
  rcases Nat.lt_trichotomy m n with h | h | h
  · exact absurd hEq (aux m n h hn)
  · exact h
  · exact absurd hEq.symm (aux n m h hm)

/-- Full coverage: from any start `j`, `2^k` iterations of `j ↦ (5j+1) % 2^k`
visit every index below `2^k`. -/
theorem lcgIter_surjOn (k j : Nat) :
    ∀ i < 2 ^ k, ∃ n < 2 ^ k, lcgIter (2 ^ k) j n = i := by
  have hS : 0 < 2 ^ k := Nat.pos_pow_of_pos _ (by norm_num)
  have hmaps : ∀ n ∈ Finset.range (2 ^ k), lcgIter (2 ^ k) j n ∈ Finset.range (2 ^ k) := by
    intro n _
    exact Finset.mem_range.mpr (lcgIter_lt _ _ _ hS)
  have hinj : ∀ m n, m ∈ Finset.range (2 ^ k) → n ∈ Finset.range (2 ^ k) →
      lcgIter (2 ^ k) j m = lcgIter (2 ^ k) j n → m = n := by
    intro m n hm hn
    exact lcgIter_injOn k j m n (Finset.mem_range.mp hm) (Finset.mem_range.mp hn)
  intro i hi
  obtain ⟨n, hn, hni⟩ := Finset.surj_on_of_inj_on_of_card_le
    (fun n _ => lcgIter (2 ^ k) j n) hmaps hinj (le_refl _) i (Finset.mem_range.mpr hi)
  exact ⟨n, Finset.mem_range.mp hn, hni.symm⟩

/-- Once `perturb` has decayed to zero the probe sequence follows the pure
`j ↦ (5j+1) % S` recurrence. -/
theorem probeIdx_decay (h mask n0 : Nat) (h0 : h < 2 ^ (PERTURB_SHIFT * n0)) (t : Nat) :
    probeIdx h mask (n0 + t) = lcgIter (mask + 1) (probeIdx h mask n0) t := by
  induction t with
  | zero => rw [Nat.add_zero, lcgIter, Nat.mod_eq_of_lt (probeIdx_lt _ _ _)]
  | succ t ih =>
    have hdiv : h / 2 ^ (PERTURB_SHIFT * (n0 + t)) = 0 := by
      apply Nat.div_eq_of_lt
      calc h < 2 ^ (PERTURB_SHIFT * n0) := h0
        _ ≤ 2 ^ (PERTURB_SHIFT * (n0 + t)) :=
          Nat.pow_le_pow_right (by norm_num) (Nat.mul_le_mul_left _ (Nat.le_add_right _ _))
    show (5 * probeIdx h mask (n0 + t) + h / 2 ^ (PERTURB_SHIFT * (n0 + t)) + 1) % (mask + 1) = _
    rw [hdiv, ih, Nat.add_zero]
    rfl

/-- Eventual full coverage of the perturbation probe sequence: after the
perturb term dies out, one extra full cycle of the pure recurrence visits
every slot index. -/
theorem probeIdx_coverage (h k n0 : Nat) (hdecay : h < 2 ^ (PERTURB_SHIFT * n0)) :
    ∀ i < 2 ^ k, ∃ n < n0 + 2 ^ k, probeIdx h (2 ^ k - 1) n = i := by
  intro i hi
  have hmask : 2 ^ k - 1 + 1 = 2 ^ k :=
    Nat.sub_add_cancel (Nat.one_le_two_pow)
  obtain ⟨t, ht, hval⟩ := lcgIter_surjOn k (probeIdx h (2 ^ k - 1) n0) i hi
  refine ⟨n0 + t, by omega, ?_⟩
  rw [probeIdx_decay h (2 ^ k - 1) n0 hdecay t, hmask, hval]

theorem probe_decay_bound (h : Nat) : h < 2 ^ (PERTURB_SHIFT * (h + 1)) := by
  calc h < 2 ^ h := Nat.lt_two_pow h
    _ ≤ 2 ^ (PERTURB_SHIFT * (h + 1)) := by
      apply Nat.pow_le_pow_right (by norm_num)
      simp only [PERTURB_SHIFT]
      omega

/-- The linear probe sequence visits every index of a power-of-two table
exactly once in the first `2^k` attempts. -/
theorem linear_exactly_once (h k : Nat) (hk : k ≤ 64) :
    ∀ j < 2 ^ k, ∃! n, n < 2 ^ k ∧ linearCodeIdx h (2 ^ k - 1) n = j := by
  have hpos : 0 < 2 ^ k := Nat.pos_pow_of_pos _ (by norm_num)
  have hmask : 2 ^ k - 1 + 1 = 2 ^ k := Nat.sub_add_cancel Nat.one_le_two_pow
  have hdvd : 2 ^ k - 1 + 1 ∣ W64 := by
    rw [hmask]
    exact pow_dvd_pow 2 hk
  have hclosed : ∀ n, linearCodeIdx h (2 ^ k - 1) n = (h % 2 ^ k + n) % 2 ^ k := by
    intro n
    rw [linearCodeIdx_eq h (2 ^ k - 1) hdvd n, hmask]
  intro j hj
  have hr : h % 2 ^ k < 2 ^ k := Nat.mod_lt _ hpos
  have hval2 : (h % 2 ^ k + (j + 2 ^ k - h % 2 ^ k) % 2 ^ k) % 2 ^ k = j := by
    calc (h % 2 ^ k + (j + 2 ^ k - h % 2 ^ k) % 2 ^ k) % 2 ^ k
        = (h % 2 ^ k + (j + 2 ^ k - h % 2 ^ k)) % 2 ^ k := (Nat.mod_modEq _ _).add_left _
      _ = (j + 2 ^ k) % 2 ^ k := by
          rw [show h % 2 ^ k + (j + 2 ^ k - h % 2 ^ k) = j + 2 ^ k from by omega]
      _ = j := by rw [Nat.add_mod_right, Nat.mod_eq_of_lt hj]
  refine ⟨(j + 2 ^ k - h % 2 ^ k) % 2 ^ k, ⟨Nat.mod_lt _ hpos, ?_⟩, ?_⟩
  · rw [hclosed]
    exact hval2
  · intro n ⟨hn, hval⟩
    rw [hclosed] at hval
    have hcancel : n ≡ (j + 2 ^ k - h % 2 ^ k) % 2 ^ k [MOD 2 ^ k] := by
      have heq2 : h % 2 ^ k + n ≡ h % 2 ^ k + (j + 2 ^ k - h % 2 ^ k) % 2 ^ k [MOD 2 ^ k] := by
        unfold Nat.ModEq
        rw [hval, hval2]
      exact heq2.add_left_cancel' _
    calc n = n % 2 ^ k := (Nat.mod_eq_of_lt hn).symm
      _ = (j + 2 ^ k - h % 2 ^ k) % 2 ^ k % 2 ^ k := hcancel
      _ = (j + 2 ^ k - h % 2 ^ k) % 2 ^ k := Nat.mod_mod_of_dvd _ (dvd_refl _)

/-- The pure recurrence visits every index of a power-of-two table exactly
once in `2^k` iterations, from any start. -/
theorem lcg_exactly_once (j0 k : Nat) :
    ∀ i < 2 ^ k, ∃! n, n < 2 ^ k ∧ lcgIter (2 ^ k) j0 n = i := by
  intro i hi
  obtain ⟨n, hn, hval⟩ := lcgIter_surjOn k j0 i hi
  refine ⟨n, ⟨hn, hval⟩, ?_⟩
  intro m ⟨hm, hmval⟩
  exact lcgIter_injOn k j0 m n hm hn (hmval.trans hval.symm)

/-- Coverage of the perturbation probe sequence as implemented: for any
hash, every index of a power-of-two table of size `2^k` (`k ≤ 64`) is
visited within the first `13 + 2^k` probes (after 13 shifts a 64-bit
perturb is zero). -/
theorem perturb_coverage_code (h k : Nat) (hk : k ≤ 64) :
    ∀ j < 2 ^ k, ∃ n < 13 + 2 ^ k, probeCodeIdx h (2 ^ k - 1) n = j := by
  have hmask : 2 ^ k - 1 + 1 = 2 ^ k := Nat.sub_add_cancel Nat.one_le_two_pow
  have hdvd : 2 ^ k - 1 + 1 ∣ W64 := by
    rw [hmask]; exact pow_dvd_pow 2 hk
  have hdecay : h % W64 < 2 ^ (PERTURB_SHIFT * 13) := by
    calc h % W64 < W64 := Nat.mod_lt _ (by norm_num [W64])
      _ < 2 ^ (PERTURB_SHIFT * 13) := by norm_num [W64, PERTURB_SHIFT]
  intro j hj
  obtain ⟨n, hn, hval⟩ := probeIdx_coverage (h % W64) k 13 hdecay j hj
  exact ⟨n, hn, by rw [probeCodeIdx_eq h _ hdvd n, hval]⟩

theorem occCount_le_nonEmptyCount (t : List Slot) : occCount t ≤ nonEmptyCount t := by
  apply List.countP_mono_left
  intro s _ hs
  cases s <;> simp_all [Slot.isOccupied, Slot.nonEmpty]

theorem getD_set_self (t : List Slot) (i : Nat) (s : Slot) (hi : i < t.length) :
    (t.set i s).getD i Slot.empty = s := by
  rw [List.getD_eq_getElem?_getD, List.getElem?_set_self (by simpa using hi)]
  rfl

theorem getD_set_ne (t : List Slot) (i j : Nat) (s : Slot) (hij : i ≠ j) :
    (t.set i s).getD j Slot.empty = t.getD j Slot.empty := by
  rw [List.getD_eq_getElem?_getD, List.getElem?_set_ne hij, ← List.getD_eq_getElem?_getD]

theorem countP_set (t : List Slot) (p : Slot → Bool) (i : Nat) (hi : i < t.length) (s : Slot) :
    (t.set i s).countP p + (if p (t.getD i Slot.empty) then 1 else 0)
      = t.countP p + (if p s then 1 else 0) := by
  induction t generalizing i with
  | nil => simp at hi
  | cons a l ih =>
    cases i with
    | zero => simp [List.countP_cons]; omega
    | succ i =>
      simp only [List.set, List.countP_cons, List.getD_cons_succ]
      have := ih i (by simpa using hi)
      omega

theorem exists_empty_index (t : List Slot) (hlt : nonEmptyCount t < t.length) :
    ∃ i < t.length, t.getD i Slot.empty = Slot.empty := by
  induction t with
  | nil => simp at hlt
  | cons a l ih =>
    cases ha : a with
    | empty => exact ⟨0, by simp, rfl⟩
    | dummy =>
      have hlt2 : nonEmptyCount l < l.length := by
        simp only [nonEmptyCount, List.countP_cons, ha, List.length_cons] at hlt ⊢
        simp [Slot.nonEmpty] at hlt
        omega
      obtain ⟨i, hi, hget⟩ := ih hlt2
      exact ⟨i + 1, by simpa using hi, by simpa using hget⟩
    | occupied k h v =>
      have hlt2 : nonEmptyCount l < l.length := by
        simp only [nonEmptyCount, List.countP_cons, ha, List.length_cons] at hlt ⊢
        simp [Slot.nonEmpty] at hlt
        omega
      obtain ⟨i, hi, hget⟩ := ih hlt2
      exact ⟨i + 1, by simpa using hi, by simpa using hget⟩

/-- The probe loop terminates as soon as an Empty slot lies ahead within
the fuel. -/
theorem lookLoop_isSome (t : List Slot) (mask key hash : Nat) :
    ∀ fuel n fs, (∃ m, n ≤ m ∧ m < n + fuel ∧ probeSlot t mask hash m = Slot.empty) →
      (lookLoop t mask key hash fuel n fs).isSome := by
  intro fuel
  induction fuel with
  | zero =>
    intro n fs ⟨m, h1, h2, _⟩
    omega
  | succ fuel ih =>
    intro n fs ⟨m, hm1, hm2, hm3⟩
    rw [lookLoop]
    cases hslot : t.getD (probeIdx hash mask n) Slot.empty with
    | empty => simp
    | dummy =>
      apply ih
      refine ⟨m, ?_, by omega, hm3⟩
      rcases Nat.eq_or_lt_of_le hm1 with h | h
      · exact absurd (h ▸ hm3) (by rw [probeSlot, hslot]; simp)
      · omega
    | occupied k h v =>
      by_cases hk : k = key
      · simp [hk]
      · simp only [hk, if_false]
        apply ih
        refine ⟨m, ?_, by omega, hm3⟩
        rcases Nat.eq_or_lt_of_le hm1 with h2 | h2
        · exact absurd (h2 ▸ hm3) (by rw [probeSlot, hslot]; simp)
        · omega

/-- If the key sits at probe position `nstar` and no earlier probe slot is
Empty or holds the key, the loop returns exactly that slot (whatever the
remembered freeslot is). -/
theorem lookLoop_found (t : List Slot) (mask key hash nstar h0 v0 : Nat)
    (hkey : probeSlot t mask hash nstar = Slot.occupied key h0 v0)
    (hbefore : ∀ m < nstar, probeSlot t mask hash m ≠ Slot.empty ∧
      ∀ h v, probeSlot t mask hash m ≠ Slot.occupied key h v) :
    ∀ fuel n fs, n ≤ nstar → nstar < n + fuel →
      lookLoop t mask key hash fuel n fs = some (probeIdx hash mask nstar) := by
  intro fuel
  induction fuel with
  | zero => intro n fs h1 h2; omega
  | succ fuel ih =>
    intro n fs h1 h2
    rw [lookLoop]
    rcases Nat.eq_or_lt_of_le h1 with hn | hn
    · subst hn
      rw [probeSlot] at hkey
      rw [hkey]
      simp
    · have hb := hbefore n hn
      cases hslot : t.getD (probeIdx hash mask n) Slot.empty with
      | empty => exact absurd (by rw [probeSlot, hslot]) hb.1
      | dummy => exact ih (n + 1) _ (by omega) (by omega)
      | occupied k h v =>
        by_cases hk : k = key
        · subst hk
          exact absurd (by rw [probeSlot, hslot]) (hb.2 h v)
        · simp only [hk, if_false]
          exact ih (n + 1) fs (by omega) (by omega)

/-- If probe position `e` is the first Empty slot and no earlier probe slot
holds the key, the loop returns an Empty or tombstone slot lying on the
probe sequence no later than `e`, with no Empty slot at any earlier probe
position (the returned slot is `freeslot` if a tombstone was passed,
otherwise the Empty slot itself). -/
theorem lookLoop_absent (t : List Slot) (mask key hash e : Nat)
    (hE : probeSlot t mask hash e = Slot.empty)
    (hNE : ∀ m < e, probeSlot t mask hash m ≠ Slot.empty)
    (hNK : ∀ m < e, ∀ h v, probeSlot t mask hash m ≠ Slot.occupied key h v) :
    ∀ fuel n fs, n ≤ e → e < n + fuel →
      (fs = none ∨ ∃ q m0, fs = some q ∧ m0 < n ∧ probeIdx hash mask m0 = q ∧
        t.getD q Slot.empty = Slot.dummy) →
      ∃ i m0, lookLoop t mask key hash fuel n fs = some i ∧
        probeIdx hash mask m0 = i ∧ m0 ≤ e ∧
        (t.getD i Slot.empty = Slot.empty ∨ t.getD i Slot.empty = Slot.dummy) ∧
        (∀ m < m0, probeSlot t mask hash m ≠ Slot.empty) := by
  intro fuel
  induction fuel with
  | zero => intro n fs h1 h2; omega
  | succ fuel ih =>
    intro n fs h1 h2 hfs
    rw [lookLoop]
    cases hslot : t.getD (probeIdx hash mask n) Slot.empty with
    | empty =>
      have hne : n = e := by
        rcases Nat.eq_or_lt_of_le h1 with h | h
        · exact h
        · exact absurd (by rw [probeSlot, hslot]) (hNE n h)
      subst hne
      rcases hfs with hfs | ⟨q, m0, hfs, hm0, hq, hdq⟩
      · subst hfs
        exact ⟨probeIdx hash mask n, n, by simp, rfl, le_refl _, Or.inl hslot, hNE⟩
      · subst hfs
        exact ⟨q, m0, by simp, hq, by omega, Or.inr hdq,
          fun m hm => hNE m (by omega)⟩
    | dummy =>
      have hne : n < e := by
        rcases Nat.eq_or_lt_of_le h1 with h | h
        · exfalso; rw [← h, probeSlot, hslot] at hE; exact Slot.noConfusion hE
        · exact h
      apply ih (n + 1) _ (by omega) (by omega)
      rcases hfs with hfs | ⟨q, m0, hfs, hm0, hq, hdq⟩
      · subst hfs
        exact Or.inr ⟨probeIdx hash mask n, n, by simp, by omega, rfl, hslot⟩
      · subst hfs
        refine Or.inr ⟨q, m0, ?_, by omega, hq, hdq⟩
        simp
    | occupied k h v =>
      have hne : n < e := by
        rcases Nat.eq_or_lt_of_le h1 with h3 | h3
        · exfalso; rw [← h3, probeSlot, hslot] at hE; exact Slot.noConfusion hE
        · exact h3
      have hk : k ≠ key := by
        intro hk
        subst hk
        exact hNK n hne h v (by rw [probeSlot, hslot])
      simp only [hk, if_false]
      apply ih (n + 1) fs (by omega) (by omega)
      rcases hfs with hfs | ⟨q, m0, hfs, hm0, hq, hdq⟩
      · exact Or.inl hfs
      · exact Or.inr ⟨q, m0, hfs, by omega, hq, hdq⟩

/-- Whatever the table looks like, a slot index returned by the probe loop
is in range and is Empty, a tombstone, or holds the searched key. -/
theorem lookLoop_result (t : List Slot) (mask key hash : Nat) :
    ∀ fuel n fs,
      (fs = none ∨ ∃ q, fs = some q ∧ q < mask + 1 ∧ t.getD q Slot.empty = Slot.dummy) →
      ∀ i, lookLoop t mask key hash fuel n fs = some i →
        i < mask + 1 ∧ (t.getD i Slot.empty = Slot.empty ∨ t.getD i Slot.empty = Slot.dummy ∨
          ∃ h v, t.getD i Slot.empty = Slot.occupied key h v) := by
  intro fuel
  induction fuel with
  | zero => intro n fs _ i h; exact absurd h (by rw [lookLoop]; simp)
  | succ fuel ih =>
    intro n fs hfs i h
    rw [lookLoop] at h
    split at h
    · rename_i hslot
      rcases hfs with hfs | ⟨q, hfs, hq1, hq2⟩
      · subst hfs
        simp only [Option.getD_none, Option.some_inj] at h
        exact ⟨h ▸ probeIdx_lt hash mask n, Or.inl (h ▸ hslot)⟩
      · subst hfs
        simp only [Option.getD_some, Option.some_inj] at h
        exact ⟨h ▸ hq1, Or.inr (Or.inl (h ▸ hq2))⟩
    · rename_i hslot
      apply ih (n + 1) _ _ i h
      rcases hfs with hfs | ⟨q, hfs, hq1, hq2⟩
      · subst hfs
        exact Or.inr ⟨probeIdx hash mask n, by simp, probeIdx_lt hash mask n, hslot⟩
      · subst hfs
        exact Or.inr ⟨q, by simp, hq1, hq2⟩
    · rename_i k h0 v0 hslot
      split at h
      · rename_i hk
        subst hk
        simp only [Option.some_inj] at h
        exact ⟨h ▸ probeIdx_lt hash mask n, Or.inr (Or.inr ⟨h0, v0, h ▸ hslot⟩)⟩
      · exact ih (n + 1) fs hfs i h

/-- Coverage instantiated for a table: some probe attempt below
`hash + mask + 2` lands on any given Empty slot. -/
theorem exists_empty_probe (t : List Slot) (mask hash k : Nat)
    (hmask : mask + 1 = 2 ^ k) (hlen : t.length = mask + 1)
    (hempty : ∃ j < t.length, t.getD j Slot.empty = Slot.empty) :
    ∃ m, m < hash + mask + 2 ∧ probeSlot t mask hash m = Slot.empty := by
  obtain ⟨j, hj, hget⟩ := hempty
  have hj2 : j < 2 ^ k := by omega
  have hmask2 : mask = 2 ^ k - 1 := by omega
  obtain ⟨n, hn, hval⟩ := probeIdx_coverage hash k (hash + 1) (probe_decay_bound hash) j hj2
  refine ⟨n, by omega, ?_⟩
  rw [probeSlot, hmask2, hval]
  exact hget

theorem lookdict_isSome (d : Dict) (key hash k : Nat)
    (hmask : d.mask + 1 = 2 ^ k) (hlen : d.table.length = d.mask + 1)
    (hempty : ∃ j < d.table.length, d.table.getD j Slot.empty = Slot.empty) :
    ∃ i, lookdict d key hash = some i := by
  obtain ⟨m, hm, hslot⟩ := exists_empty_probe d.table d.mask hash k hmask hlen hempty
  have hs := lookLoop_isSome d.table d.mask key hash (hash + d.mask + 3) 0 none
    ⟨m, Nat.zero_le _, by omega, hslot⟩
  exact Option.isSome_iff_exists.mp hs

theorem lookdict_result (d : Dict) (key hash i : Nat) (h : lookdict d key hash = some i) :
    i < d.mask + 1 ∧ (d.table.getD i Slot.empty = Slot.empty ∨
      d.table.getD i Slot.empty = Slot.dummy ∨
      ∃ h0 v0, d.table.getD i Slot.empty = Slot.occupied key h0 v0) :=
  lookLoop_result d.table d.mask key hash (hash + d.mask + 3) 0 none (Or.inl rfl) i h

/-- A dict satisfying the fill bound has an Empty slot. -/
theorem DictInv.empty_slot (d : Dict) (hInv : DictInv d) :
    ∃ j < d.table.length, d.table.getD j Slot.empty = Slot.empty := by
  obtain ⟨⟨⟨k, hk3, hmask⟩, hlen, hfill, hused⟩, hle⟩ := hInv
  apply exists_empty_index
  omega

/-! ### The resize controller -/

theorem newsizeLoop_spec (minused : Nat) :
    ∀ fuel newsize, 0 < newsize → minused + 1 - newsize ≤ fuel →
      minused < newsizeLoop fuel newsize minused ∧
      newsize ≤ newsizeLoop fuel newsize minused ∧
      ∃ j, newsizeLoop fuel newsize minused = newsize * 2 ^ j := by
  intro fuel
  induction fuel with
  | zero =>
    intro newsize h0 hf
    rw [newsizeLoop]
    exact ⟨by omega, le_refl _, 0, by ring⟩
  | succ fuel ih =>
    intro newsize h0 hf
    by_cases h : newsize ≤ minused
    · rw [newsizeLoop, if_pos ⟨h0, h⟩]
      obtain ⟨ha, hb, j, hj⟩ := ih (newsize * 2) (by omega) (by omega)
      exact ⟨ha, by omega, j + 1, by rw [hj]; ring⟩
    · rw [newsizeLoop, if_neg (by omega)]
      exact ⟨by omega, le_refl _, 0, by ring⟩

theorem newsizeFor_spec (minused : Nat) :
    minused < newsizeFor minused ∧ 8 ≤ newsizeFor minused ∧
    ∃ k, 3 ≤ k ∧ newsizeFor minused = 2 ^ k := by
  obtain ⟨ha, hb, j, hj⟩ := newsizeLoop_spec minused (minused + 1) 8 (by norm_num) (by omega)
  refine ⟨ha, by simpa [newsizeFor, PyDict_MINSIZE] using hb, j + 3, by omega, ?_⟩
  unfold newsizeFor PyDict_MINSIZE
  rw [hj, pow_add]
  ring_nf

/-- Minimality: the chosen size is the least power of two that is at least
the minimum and strictly greater than `minused`. -/
theorem newsizeLoop_min (minused : Nat) :
    ∀ fuel newsize, 0 < newsize → minused + 1 - newsize ≤ fuel →
      ∀ j, minused < newsize * 2 ^ j →
        newsizeLoop fuel newsize minused ≤ newsize * 2 ^ j := by
  intro fuel
  induction fuel with
  | zero =>
    intro newsize h0 hf j hj
    rw [newsizeLoop]
    have : (1 : Nat) ≤ 2 ^ j := Nat.one_le_two_pow
    calc newsize = newsize * 1 := by ring
      _ ≤ newsize * 2 ^ j := Nat.mul_le_mul_left _ this
  | succ fuel ih =>
    intro newsize h0 hf j hj
    by_cases h : newsize ≤ minused
    · rw [newsizeLoop, if_pos ⟨h0, h⟩]
      cases j with
      | zero => simp at hj; omega
      | succ j =>
        have hj2 : minused < newsize * 2 * 2 ^ j := by
          rw [pow_succ] at hj
          calc minused < newsize * 2 ^ (j + 1) := hj
            _ = newsize * 2 * 2 ^ j := by rw [pow_succ]; ring
        have := ih (newsize * 2) (by omega) (by omega) j hj2
        calc newsizeLoop fuel (newsize * 2) minused ≤ newsize * 2 * 2 ^ j := this
          _ = newsize * 2 ^ (j + 1) := by rw [pow_succ]; ring
    · rw [newsizeLoop, if_neg (by omega)]
      have : (1 : Nat) ≤ 2 ^ j := Nat.one_le_two_pow
      calc newsize = newsize * 1 := by ring
        _ ≤ newsize * 2 ^ j := Nat.mul_le_mul_left _ this

theorem newsizeFor_min (minused k : Nat) (h3 : 3 ≤ k) (hgt : minused < 2 ^ k) :
    newsizeFor minused ≤ 2 ^ k := by
  have h8 : (2 : Nat) ^ k = 8 * 2 ^ (k - 3) := by
    have : (8 : Nat) = 2 ^ 3 := by norm_num
    rw [this, ← pow_add]
    congr 1
    omega
  rw [newsizeFor, PyDict_MINSIZE, h8]
  exact newsizeLoop_min minused (minused + 1) 8 (by norm_num) (by omega) (k - 3) (by omega)

theorem entries_replicate (n : Nat) : entries (List.replicate n Slot.empty) = [] := by
  induction n with
  | zero => rfl
  | succ n ih => simpa [entries, List.replicate_succ, List.filterMap_cons] using ih

theorem entries_of_nonEmptyCount_zero (t : List Slot) (h : nonEmptyCount t = 0) :
    entries t = [] := by
  induction t with
  | nil => rfl
  | cons a l ih =>
    cases ha : a with
    | empty =>
      subst ha
      simp only [nonEmptyCount, List.countP_cons, Slot.nonEmpty] at h
      simpa [entries, List.filterMap_cons] using ih (by simpa [nonEmptyCount] using h)
    | dummy =>
      subst ha
      simp [nonEmptyCount, List.countP_cons, Slot.nonEmpty] at h
    | occupied k h0 v0 =>
      subst ha
      simp [nonEmptyCount, List.countP_cons, Slot.nonEmpty] at h

theorem entries_set_empty (t : List Slot) (i k h v : Nat) (hi : i < t.length)
    (he : t.getD i Slot.empty = Slot.empty) :
    (entries (t.set i (Slot.occupied k h v))).Perm ((k, h, v) :: entries t) := by
  induction t generalizing i with
  | nil => simp at hi
  | cons a l ih =>
    cases i with
    | zero =>
      have ha : a = Slot.empty := he
      subst ha
      simp [entries, List.filterMap_cons]
    | succ i =>
      have hi2 : i < l.length := by simpa using hi
      have he2 : l.getD i Slot.empty = Slot.empty := he
      have hperm := ih i hi2 he2
      cases a with
      | empty =>
        simpa [entries, List.filterMap_cons] using hperm
      | dummy =>
        simpa [entries, List.filterMap_cons] using hperm
      | occupied ka ha va =>
        simp only [List.set, entries, List.filterMap_cons]
        exact ((hperm.cons (ka, ha, va)).trans (List.Perm.swap _ _ _))

/-- The probe loop of `insertdict_clean` returns the first Empty slot on
the probe sequence, provided one lies within the fuel. -/
theorem cleanLoop_spec (t : List Slot) (mask hash : Nat) :
    ∀ fuel n, (∃ m, n ≤ m ∧ m < n + fuel ∧ probeSlot t mask hash m = Slot.empty) →
      ∃ i m0, cleanLoop t mask hash fuel n = some i ∧ probeIdx hash mask m0 = i ∧
        n ≤ m0 ∧ t.getD i Slot.empty = Slot.empty ∧
        ∀ m, n ≤ m → m < m0 → probeSlot t mask hash m ≠ Slot.empty := by
  intro fuel
  induction fuel with
  | zero => intro n ⟨m, h1, h2, _⟩; omega
  | succ fuel ih =>
    intro n ⟨m, hm1, hm2, hm3⟩
    cases hslot : t.getD (probeIdx hash mask n) Slot.empty with
    | empty =>
      refine ⟨probeIdx hash mask n, n, ?_, rfl, le_refl _, hslot, by omega⟩
      rw [cleanLoop, hslot]
    | dummy =>
      have hm : n + 1 ≤ m := by
        rcases Nat.eq_or_lt_of_le hm1 with h | h
        · exact absurd (h ▸ hm3) (by rw [probeSlot, hslot]; simp)
        · omega
      obtain ⟨i, m0, heq, hpi, hm0, hie, hpre⟩ := ih (n + 1) ⟨m, hm, by omega, hm3⟩
      refine ⟨i, m0, ?_, hpi, by omega, hie, ?_⟩
      · rw [cleanLoop, hslot]
        exact heq
      · intro m' hm'1 hm'2
        rcases Nat.eq_or_lt_of_le hm'1 with h | h
        · rw [← h, probeSlot, hslot]
          simp
        · exact hpre m' h hm'2
    | occupied k0 h0 v0 =>
      have hm : n + 1 ≤ m := by
        rcases Nat.eq_or_lt_of_le hm1 with h | h
        · exact absurd (h ▸ hm3) (by rw [probeSlot, hslot]; simp)
        · omega
      obtain ⟨i, m0, heq, hpi, hm0, hie, hpre⟩ := ih (n + 1) ⟨m, hm, by omega, hm3⟩
      refine ⟨i, m0, ?_, hpi, by omega, hie, ?_⟩
      · rw [cleanLoop, hslot]
        exact heq
      · intro m' hm'1 hm'2
        rcases Nat.eq_or_lt_of_le hm'1 with h | h
        · rw [← h, probeSlot, hslot]
          simp
        · exact hpre m' h hm'2

theorem insertdict_clean_spec (d : Dict) (key hash value k : Nat)
    (hmask : d.mask + 1 = 2 ^ k) (hlen : d.table.length = d.mask + 1)
    (hcap : nonEmptyCount d.table < d.table.length) :
    ∃ i m0,
      insertdict_clean d key hash value = some
        { d with table := d.table.set i (Slot.occupied key hash value),
                 fill := d.fill + 1, used := d.used + 1 } ∧
      i < d.mask + 1 ∧ d.table.getD i Slot.empty = Slot.empty ∧
      probeIdx hash d.mask m0 = i ∧
      (∀ m < m0, probeSlot d.table d.mask hash m ≠ Slot.empty) := by
  have hempty : ∃ j < d.table.length, d.table.getD j Slot.empty = Slot.empty :=
    exists_empty_index d.table hcap
  obtain ⟨m, hm, hpe⟩ := exists_empty_probe d.table d.mask hash k hmask hlen hempty
  obtain ⟨i, m0, heq, hpi, _, hie, hpre⟩ :=
    cleanLoop_spec d.table d.mask hash (hash + d.mask + 3) 0 ⟨m, Nat.zero_le _, by omega, hpe⟩
  refine ⟨i, m0, ?_, hpi ▸ probeIdx_lt hash d.mask m0, hie, hpi, fun m1 hm1 => hpre m1 (Nat.zero_le _) hm1⟩
  rw [insertdict_clean, heq]

theorem rehashLoop_spec :
    ∀ (old : List Slot) (i : Nat) (d0 : Dict) (K : Nat),
      d0.mask + 1 = 2 ^ K → d0.table.length = d0.mask + 1 →
      d0.fill = nonEmptyCount d0.table → d0.used = occCount d0.table →
      nonEmptyCount old ≤ i →
      nonEmptyCount d0.table + occCount old < d0.table.length →
      ∃ e, rehashLoop d0 old i = some e ∧
        e.mask = d0.mask ∧ e.table.length = d0.table.length ∧
        e.fill = nonEmptyCount e.table ∧ e.used = occCount e.table ∧
        e.fill = d0.fill + occCount old ∧ e.used = d0.used + occCount old ∧
        (entries e.table).Perm (entries old ++ entries d0.table) := by
  intro old
  induction old with
  | nil =>
    intro i d0 K hmask hlen hfill hused hcnt hcap
    refine ⟨d0, ?_, rfl, rfl, hfill, hused, rfl, rfl, ?_⟩
    · cases i <;> rfl
    · simp [entries]
  | cons s rest ih =>
    intro i d0 K hmask hlen hfill hused hcnt hcap
    cases i with
    | zero =>
      have hz : nonEmptyCount (s :: rest) = 0 := by omega
      have hocc : occCount (s :: rest) = 0 := by
        have := occCount_le_nonEmptyCount (s :: rest)
        omega
      have hent : entries (s :: rest) = [] := entries_of_nonEmptyCount_zero _ hz
      refine ⟨d0, rfl, rfl, rfl, hfill, hused, by omega, by omega, ?_⟩
      rw [hent]
      simp
    | succ i =>
      cases s with
      | empty =>
        have hcnt2 : nonEmptyCount rest ≤ i + 1 := by
          simpa [nonEmptyCount, List.countP_cons, Slot.nonEmpty] using hcnt
        have hocc : occCount (Slot.empty :: rest) = occCount rest := by
          simp [occCount, List.countP_cons, Slot.isOccupied]
        have hent : entries (Slot.empty :: rest) = entries rest := by
          simp [entries, List.filterMap_cons]
        obtain ⟨e, heq, h1, h2, h3, h4, h5, h6, h7⟩ :=
          ih (i + 1) d0 K hmask hlen hfill hused hcnt2 (by omega)
        exact ⟨e, heq, h1, h2, h3, h4, by omega, by omega, by rw [hent]; exact h7⟩
      | dummy =>
        have hcnt2 : nonEmptyCount rest ≤ i := by
          simp [nonEmptyCount, List.countP_cons, Slot.nonEmpty] at hcnt ⊢
          omega
        have hocc : occCount (Slot.dummy :: rest) = occCount rest := by
          simp [occCount, List.countP_cons, Slot.isOccupied]
        have hent : entries (Slot.dummy :: rest) = entries rest := by
          simp [entries, List.filterMap_cons]
        obtain ⟨e, heq, h1, h2, h3, h4, h5, h6, h7⟩ :=
          ih i d0 K hmask hlen hfill hused hcnt2 (by omega)
        exact ⟨e, heq, h1, h2, h3, h4, by omega, by omega, by rw [hent]; exact h7⟩
      | occupied k0 h0 v0 =>
        have hoccs : occCount (Slot.occupied k0 h0 v0 :: rest) = occCount rest + 1 := by
          simp [occCount, List.countP_cons, Slot.isOccupied]
        have hcap1 : nonEmptyCount d0.table < d0.table.length := by omega
        obtain ⟨j, m0, hclean, hj, hje, _, _⟩ :=
          insertdict_clean_spec d0 k0 h0 v0 K hmask hlen hcap1
        set e1 : Dict :=
          { d0 with table := d0.table.set j (Slot.occupied k0 h0 v0),
                    fill := d0.fill + 1, used := d0.used + 1 } with he1
        have hlen1 : e1.table.length = e1.mask + 1 := by
          simpa [he1, List.length_set] using hlen
        have hjlen : j < d0.table.length := by omega
        have hne1 : nonEmptyCount e1.table = nonEmptyCount d0.table + 1 := by
          have := countP_set d0.table Slot.nonEmpty j hjlen (Slot.occupied k0 h0 v0)
          rw [hje] at this
          simpa [nonEmptyCount, Slot.nonEmpty, he1] using this
        have hoc1 : occCount e1.table = occCount d0.table + 1 := by
          have := countP_set d0.table Slot.isOccupied j hjlen (Slot.occupied k0 h0 v0)
          rw [hje] at this
          simpa [occCount, Slot.isOccupied, he1] using this
        have hcnt2 : nonEmptyCount rest ≤ i := by
          simp [nonEmptyCount, List.countP_cons, Slot.nonEmpty] at hcnt ⊢
          omega
        obtain ⟨e, heq, h1, h2, h3, h4, h5, h6, h7⟩ :=
          ih i e1 K (by simpa [he1] using hmask) hlen1
            (by simp [he1, hne1]; omega) (by simp [he1, hoc1]; omega)
            hcnt2 (by simp [he1, hne1, List.length_set]; omega)
        have hperm1 : (entries e1.table).Perm ((k0, h0, v0) :: entries d0.table) := by
          simpa [he1] using entries_set_empty d0.table j k0 h0 v0 hjlen hje
        refine ⟨e, ?_, by simpa [he1] using h1, by simpa [he1, List.length_set] using h2,
          h3, h4, by simp [he1] at h5; omega, by simp [he1] at h6; omega, ?_⟩
        · show rehashLoop d0 (Slot.occupied k0 h0 v0 :: rest) (i + 1) = some e
          rw [rehashLoop, hclean]
          exact heq
        · have hstep1 : (entries e.table).Perm (entries rest ++ ((k0, h0, v0) :: entries d0.table)) :=
            h7.trans (List.Perm.append_left _ hperm1)
          have hstep2 : (entries e.table).Perm ((k0, h0, v0) :: (entries rest ++ entries d0.table)) :=
            hstep1.trans List.perm_middle
          have hent : entries (Slot.occupied k0 h0 v0 :: rest) = (k0, h0, v0) :: entries rest := by
            simp [entries, List.filterMap_cons]
          rw [hent]
          exact hstep2

theorem nonEmptyCount_replicate (n : Nat) :
    nonEmptyCount (List.replicate n Slot.empty) = 0 := by
  induction n with
  | zero => rfl
  | succ n ih =>
    simpa [nonEmptyCount, List.replicate_succ, List.countP_cons, Slot.nonEmpty]
      using ih

theorem occCount_replicate (n : Nat) :
    occCount (List.replicate n Slot.empty) = 0 := by
  induction n with
  | zero => rfl
  | succ n ih =>
    simpa [occCount, List.replicate_succ, List.countP_cons, Slot.isOccupied]
      using ih

/-- The `dictresize` with a working allocator and `used ≤ minused` succeeds,
restores the full invariant and preserves the stored entries up to
permutation; when it does not return immediately (small clean table), the
new size is exactly `newsizeFor minused` and all tombstones are gone. -/
theorem dictresize_spec (d : Dict) (minused : Nat)
    (hpre : PreInv d) (hused : d.used ≤ minused) :
    ∃ e, dictresize true d minused = some (e, true) ∧ DictInv e ∧
      (entries e.table).Perm (entries d.table) ∧
      ((e = d ∧ newsizeFor minused = PyDict_MINSIZE ∧ d.mask + 1 = PyDict_MINSIZE) ∨
        (e.mask + 1 = newsizeFor minused ∧ e.fill = e.used)) := by
  obtain ⟨⟨k, hk3, hmask⟩, hlen, hfill, husedc⟩ := hpre
  obtain ⟨hgt, h8, K, hK3, hKeq⟩ := newsizeFor_spec minused
  by_cases hcond : newsizeFor minused = PyDict_MINSIZE ∧ d.mask + 1 = PyDict_MINSIZE ∧
      d.fill = d.used
  · refine ⟨d, ?_, ⟨⟨⟨k, hk3, hmask⟩, hlen, hfill, husedc⟩, ?_⟩, List.Perm.refl _,
      Or.inl ⟨rfl, hcond.1, hcond.2.1⟩⟩
    · rw [dictresize, if_pos hcond]
    · have h1 := hcond.1
      have h2 := hcond.2.1
      have h3 := hcond.2.2
      rw [PyDict_MINSIZE] at h1 h2
      omega
  · have hnot2 : ¬ (newsizeFor minused ≠ PyDict_MINSIZE ∧ true = false) := by simp
    have hbase_mask : newsizeFor minused - 1 + 1 = 2 ^ K := by omega
    obtain ⟨e, heq, h1, h2, h3, h4, h5, h6, h7⟩ :=
      rehashLoop_spec d.table d.fill
        { mask := newsizeFor minused - 1, fill := 0, used := 0,
          table := List.replicate (newsizeFor minused) Slot.empty } K
        hbase_mask
        (by simp [List.length_replicate]; omega)
        (by simp [nonEmptyCount_replicate])
        (by simp [occCount_replicate])
        (by omega)
        (by simp [List.length_replicate, nonEmptyCount_replicate]; omega)
    simp only [List.length_replicate] at h2
    have h1a : e.mask = newsizeFor minused - 1 := h1
    have h5a : e.fill = occCount d.table := by simpa using h5
    have h6a : e.used = occCount d.table := by simpa using h6
    refine ⟨e, ?_, ⟨⟨⟨K, hK3, by omega⟩, by omega, h3, h4⟩, by omega⟩, ?_,
      Or.inr ⟨by omega, by omega⟩⟩
    · rw [dictresize, if_neg hcond, if_neg hnot2, heq]
    · have hbase : entries (List.replicate (newsizeFor minused) Slot.empty) = [] :=
        entries_replicate _
      have hp := h7
      rw [hbase] at hp
      simpa using hp

/-! ### Invariant preservation -/

theorem insertdict_spec (d : Dict) (key hash value : Nat) (hInv : DictInv d) :
    ∃ e, insertdict d key hash value = some e ∧
      e.mask = d.mask ∧ PreInv e ∧
      ((e.used = d.used ∧ e.fill = d.fill) ∨
        (e.used = d.used + 1 ∧ e.fill = d.fill) ∨
        (e.used = d.used + 1 ∧ e.fill = d.fill + 1)) := by
  have hempty := DictInv.empty_slot d hInv
  obtain ⟨⟨⟨k, hk3, hmask⟩, hlen, hfill, husedc⟩, hle⟩ := hInv
  obtain ⟨i, hlook⟩ := lookdict_isSome d key hash k hmask hlen hempty
  obtain ⟨hilt, hcases⟩ := lookdict_result d key hash i hlook
  have hilen : i < d.table.length := by omega
  unfold nonEmptyCount at hfill
  unfold occCount at husedc
  rcases hcases with hslot | hslot | ⟨h0, v0, hslot⟩
  · -- virgin slot: fill and used both grow
    have hne2 : List.countP Slot.nonEmpty (d.table.set i (Slot.occupied key hash value))
        = List.countP Slot.nonEmpty d.table + 1 := by
      have h := countP_set d.table Slot.nonEmpty i hilen (Slot.occupied key hash value)
      rw [hslot] at h
      simpa [Slot.nonEmpty] using h
    have hoc2 : List.countP Slot.isOccupied (d.table.set i (Slot.occupied key hash value))
        = List.countP Slot.isOccupied d.table + 1 := by
      have h := countP_set d.table Slot.isOccupied i hilen (Slot.occupied key hash value)
      rw [hslot] at h
      simpa [Slot.isOccupied] using h
    refine ⟨⟨d.mask, d.fill + 1, d.used + 1,
        d.table.set i (Slot.occupied key hash value)⟩, ?_, rfl,
      ⟨⟨k, hk3, hmask⟩, by simpa [List.length_set] using hlen, ?_, ?_⟩,
      Or.inr (Or.inr ⟨rfl, rfl⟩)⟩
    · simp only [insertdict, hlook, hslot]
    · show d.fill + 1 = nonEmptyCount (d.table.set i (Slot.occupied key hash value))
      unfold nonEmptyCount
      omega
    · show d.used + 1 = occCount (d.table.set i (Slot.occupied key hash value))
      unfold occCount
      omega
  · -- tombstone reuse: used grows, fill unchanged
    have hne2 : List.countP Slot.nonEmpty (d.table.set i (Slot.occupied key hash value))
        = List.countP Slot.nonEmpty d.table := by
      have h := countP_set d.table Slot.nonEmpty i hilen (Slot.occupied key hash value)
      rw [hslot] at h
      simpa [Slot.nonEmpty] using h
    have hoc2 : List.countP Slot.isOccupied (d.table.set i (Slot.occupied key hash value))
        = List.countP Slot.isOccupied d.table + 1 := by
      have h := countP_set d.table Slot.isOccupied i hilen (Slot.occupied key hash value)
      rw [hslot] at h
      simpa [Slot.isOccupied] using h
    refine ⟨⟨d.mask, d.fill, d.used + 1,
        d.table.set i (Slot.occupied key hash value)⟩, ?_, rfl,
      ⟨⟨k, hk3, hmask⟩, by simpa [List.length_set] using hlen, ?_, ?_⟩,
      Or.inr (Or.inl ⟨rfl, rfl⟩)⟩
    · simp only [insertdict, hlook, hslot]
    · show d.fill = nonEmptyCount (d.table.set i (Slot.occupied key hash value))
      unfold nonEmptyCount
      omega
    · show d.used + 1 = occCount (d.table.set i (Slot.occupied key hash value))
      unfold occCount
      omega
  · -- existing key: replace the value only
    have hne2 : List.countP Slot.nonEmpty (d.table.set i (Slot.occupied key h0 value))
        = List.countP Slot.nonEmpty d.table := by
      have h := countP_set d.table Slot.nonEmpty i hilen (Slot.occupied key h0 value)
      rw [hslot] at h
      simpa [Slot.nonEmpty] using h
    have hoc2 : List.countP Slot.isOccupied (d.table.set i (Slot.occupied key h0 value))
        = List.countP Slot.isOccupied d.table := by
      have h := countP_set d.table Slot.isOccupied i hilen (Slot.occupied key h0 value)
      rw [hslot] at h
      simpa [Slot.isOccupied] using h
    refine ⟨⟨d.mask, d.fill, d.used, d.table.set i (Slot.occupied key h0 value)⟩, ?_, rfl,
      ⟨⟨k, hk3, hmask⟩, by simpa [List.length_set] using hlen, ?_, ?_⟩,
      Or.inl ⟨rfl, rfl⟩⟩
    · simp only [insertdict, hlook, hslot]
    · show d.fill = nonEmptyCount (d.table.set i (Slot.occupied key h0 value))
      unfold nonEmptyCount
      omega
    · show d.used = occCount (d.table.set i (Slot.occupied key h0 value))
      unfold occCount
      omega

theorem PyDict_SetItem_spec (d : Dict) (key hash value : Nat) (hInv : DictInv d) :
    ∃ e, PyDict_SetItem d key hash value = some e ∧ DictInv e := by
  obtain ⟨e1, hins, hmask1, hpre1, hcase⟩ := insertdict_spec d key hash value hInv
  have h8 : 8 ≤ e1.mask + 1 := by
    obtain ⟨⟨k, hk3, hm⟩, _, _, _⟩ := hpre1
    have : (2 : Nat) ^ 3 ≤ 2 ^ k := Nat.pow_le_pow_right (by norm_num) hk3
    omega
  by_cases hcond : e1.used > d.used ∧ e1.fill * 3 ≥ (e1.mask + 1) * 2
  · -- resize is triggered
    have hused1 : e1.used ≤ (if e1.used > 50000 then 2 else 4) * e1.used := by
      split <;> omega
    obtain ⟨e2, hres, hinv2, _, _⟩ := dictresize_spec e1 _ hpre1 hused1
    refine ⟨e2, ?_, hinv2⟩
    simp only [PyDict_SetItem, hins]
    split
    · rename_i hcontra
      exact absurd hcond hcontra
    · rw [hres]
  · refine ⟨e1, ?_, hpre1, ?_⟩
    · simp only [PyDict_SetItem, hins]
      split
      · rfl
      · rename_i hcontra
        exact absurd hcond hcontra
    · have hled : d.fill ≤ d.mask := hInv.2
      rcases hcase with ⟨hu, hf⟩ | ⟨hu, hf⟩ | ⟨hu, hf⟩
      · omega
      · omega
      · have h3f : ¬ (e1.fill * 3 ≥ (e1.mask + 1) * 2) := by
          intro hge
          exact hcond ⟨by omega, hge⟩
        omega

theorem PyDict_DelItem_spec (d : Dict) (key hash : Nat) (hInv : DictInv d) :
    ∃ e b, PyDict_DelItem d key hash = some (e, b) ∧ DictInv e ∧
      (b = false → e = d) := by
  have hempty := DictInv.empty_slot d hInv
  obtain ⟨⟨⟨k, hk3, hmask⟩, hlen, hfill, husedc⟩, hle⟩ := hInv
  obtain ⟨i, hlook⟩ := lookdict_isSome d key hash k hmask hlen hempty
  obtain ⟨hilt, hcases⟩ := lookdict_result d key hash i hlook
  have hilen : i < d.table.length := by omega
  unfold nonEmptyCount at hfill
  unfold occCount at husedc
  rcases hcases with hslot | hslot | ⟨h0, v0, hslot⟩
  · exact ⟨d, false, by simp only [PyDict_DelItem, hlook, hslot],
      ⟨⟨⟨k, hk3, hmask⟩, hlen, hfill, husedc⟩, hle⟩, fun _ => rfl⟩
  · exact ⟨d, false, by simp only [PyDict_DelItem, hlook, hslot],
      ⟨⟨⟨k, hk3, hmask⟩, hlen, hfill, husedc⟩, hle⟩, fun _ => rfl⟩
  · have hne2 : List.countP Slot.nonEmpty (d.table.set i Slot.dummy)
        = List.countP Slot.nonEmpty d.table := by
      have h := countP_set d.table Slot.nonEmpty i hilen Slot.dummy
      rw [hslot] at h
      simpa [Slot.nonEmpty] using h
    have hoc2 : List.countP Slot.isOccupied (d.table.set i Slot.dummy) + 1
        = List.countP Slot.isOccupied d.table := by
      have h := countP_set d.table Slot.isOccupied i hilen Slot.dummy
      rw [hslot] at h
      simpa [Slot.isOccupied] using h
    refine ⟨⟨d.mask, d.fill, d.used - 1, d.table.set i Slot.dummy⟩, true, ?_,
      ⟨⟨⟨k, hk3, hmask⟩, by simpa [List.length_set] using hlen, ?_, ?_⟩, hle⟩,
      by intro h; exact absurd h (by simp)⟩
    · simp only [PyDict_DelItem, hlook, hslot]
    · show d.fill = nonEmptyCount (d.table.set i Slot.dummy)
      unfold nonEmptyCount
      omega
    · show d.used - 1 = occCount (d.table.set i Slot.dummy)
      unfold occCount
      omega

theorem DictInv_new : DictInv PyDict_New :=
  ⟨⟨⟨3, le_refl 3, rfl⟩, rfl, rfl, rfl⟩, Nat.zero_le _⟩

theorem DictStep_inv {d e : Dict} (hInv : DictInv d) (hstep : DictStep d e) : DictInv e := by
  cases hstep with
  | set key hash value heq =>
    obtain ⟨e2, heq2, hinv2⟩ := PyDict_SetItem_spec d key hash value hInv
    rw [heq] at heq2
    exact (Option.some_inj.mp heq2) ▸ hinv2
  | del key hash ok heq =>
    obtain ⟨e2, b2, heq2, hinv2, _⟩ := PyDict_DelItem_spec d key hash hInv
    rw [heq] at heq2
    have hpair := Option.some_inj.mp heq2
    have hee : e = e2 := congrArg Prod.fst hpair
    exact hee ▸ hinv2
  | resize minused ok hmin heq =>
    obtain ⟨e2, heq2, hinv2, _, _⟩ := dictresize_spec d minused hInv.1 hmin
    rw [heq] at heq2
    have hpair := Option.some_inj.mp heq2
    have hee : e = e2 := congrArg Prod.fst hpair
    exact hee ▸ hinv2

theorem DictReachable_inv {d : Dict} (h : DictReachable d) : DictInv d := by
  induction h with
  | base => exact DictInv_new
  | step _ hstep ih => exact DictStep_inv ih hstep

theorem FindsAt_mono (t u : List Slot) (mask h j : Nat)
    (hsub : ∀ i, t.getD i Slot.empty ≠ Slot.empty → u.getD i Slot.empty ≠ Slot.empty)
    (hFA : FindsAt t mask h j) : FindsAt u mask h j := by
  obtain ⟨n, hn, hpre⟩ := hFA
  exact ⟨n, hn, fun m hm => hsub _ (hpre m hm)⟩

theorem set_nonEmpty_sub (t : List Slot) (i : Nat) (s : Slot) (hs : s ≠ Slot.empty) :
    ∀ j, t.getD j Slot.empty ≠ Slot.empty → (t.set i s).getD j Slot.empty ≠ Slot.empty := by
  intro j hj
  by_cases hij : i = j
  · subst hij
    by_cases hlt : i < t.length
    · rw [getD_set_self t i s hlt]
      exact hs
    · rw [List.set_eq_of_length_le (by omega)]
      exact hj
  · rw [getD_set_ne t i j s hij]
    exact hj

/-- The lookup finds the (unique) slot holding the searched key when the
table is well-formed. -/
theorem lookdict_finds (d : Dict) (hf : Nat → Nat) (key h v : Nat) (j : Nat)
    (hWF : DictWF d hf) (hj : j < d.table.length)
    (hslot : d.table.getD j Slot.empty = Slot.occupied key h v) :
    lookdict d key h = some j := by
  obtain ⟨hInv, hagree, huniq, hfinds⟩ := hWF
  obtain ⟨n1, hn1, hpre1⟩ := hfinds j key h v hj hslot
  have hex : ∃ n, probeIdx h d.mask n = j := ⟨n1, hn1⟩
  set nstar := Nat.find hex with hnstar
  have hstar : probeIdx h d.mask nstar = j := Nat.find_spec hex
  have hmin : ∀ m < nstar, probeIdx h d.mask m ≠ j := fun m hm => Nat.find_min hex hm
  have hstar_le : nstar ≤ n1 := Nat.find_min' hex hn1
  have hbefore : ∀ m < nstar, probeSlot d.table d.mask h m ≠ Slot.empty ∧
      ∀ h2 v2, probeSlot d.table d.mask h m ≠ Slot.occupied key h2 v2 := by
    intro m hm
    refine ⟨hpre1 m (by omega), ?_⟩
    intro h2 v2 hocc
    have hidx : probeIdx h d.mask m < d.table.length := by
      have := probeIdx_lt h d.mask m
      have := hInv.1.2.1
      omega
    have := huniq (probeIdx h d.mask m) j key h2 v2 key h v hidx hj hocc hslot rfl
    exact hmin m hm this
  -- the first Empty probe position bounds nstar and lies within the fuel
  obtain ⟨mE, hmE, hmEslot⟩ := exists_empty_probe d.table d.mask h
    (Classical.choose hInv.1.1) (Classical.choose_spec hInv.1.1).2 hInv.1.2.1
    (DictInv.empty_slot d hInv)
  have hstar_lt : nstar ≤ mE := by
    by_contra hc
    exact (hpre1 mE (by omega)) hmEslot
  have := lookLoop_found d.table d.mask key h nstar h v
    (by rw [probeSlot, hstar]; exact hslot) hbefore (h + d.mask + 3) 0 none
    (Nat.zero_le _) (by omega)
  rw [lookdict, this, hstar]

/-- Lookup of an absent key lands on an Empty or tombstone slot lying on
the probe sequence, with no Empty slot at an earlier probe position. -/
theorem lookdict_absent (d : Dict) (key h : Nat) (hInv : DictInv d)
    (hno : ∀ j k2 h2 v2, j < d.table.length →
      d.table.getD j Slot.empty = Slot.occupied k2 h2 v2 → k2 ≠ key) :
    ∃ i m0, lookdict d key h = some i ∧ probeIdx h d.mask m0 = i ∧
      (d.table.getD i Slot.empty = Slot.empty ∨ d.table.getD i Slot.empty = Slot.dummy) ∧
      ∀ m < m0, probeSlot d.table d.mask h m ≠ Slot.empty := by
  obtain ⟨mE, hmE, hmEslot⟩ := exists_empty_probe d.table d.mask h
    (Classical.choose hInv.1.1) (Classical.choose_spec hInv.1.1).2 hInv.1.2.1
    (DictInv.empty_slot d hInv)
  have hex : ∃ m, probeSlot d.table d.mask h m = Slot.empty := ⟨mE, hmEslot⟩
  set e := Nat.find hex with he
  have heslot : probeSlot d.table d.mask h e = Slot.empty := Nat.find_spec hex
  have hNE : ∀ m < e, probeSlot d.table d.mask h m ≠ Slot.empty :=
    fun m hm => Nat.find_min hex hm
  have hNK : ∀ m < e, ∀ h2 v2,
      probeSlot d.table d.mask h m ≠ Slot.occupied key h2 v2 := by
    intro m _ h2 v2 hocc
    have hidx : probeIdx h d.mask m < d.table.length := by
      have := probeIdx_lt h d.mask m
      have := hInv.1.2.1
      omega
    exact hno _ key h2 v2 hidx hocc rfl
  have he_le : e ≤ mE := Nat.find_min' hex hmEslot
  obtain ⟨i, m0, heq, hpi, hm0e, hcases, hpre⟩ :=
    lookLoop_absent d.table d.mask key h e heslot hNE hNK (h + d.mask + 3) 0 none
      (Nat.zero_le _) (by omega) (Or.inl rfl)
  exact ⟨i, m0, heq, hpi, hcases, hpre⟩

theorem mem_entries_iff (t : List Slot) (k h v : Nat) :
    (k, h, v) ∈ entries t ↔
      ∃ j < t.length, t.getD j Slot.empty = Slot.occupied k h v := by
  induction t with
  | nil => simp [entries]
  | cons a l ih =>
    cases a with
    | empty =>
      simp only [entries, List.filterMap_cons] at *
      rw [ih]
      constructor
      · rintro ⟨j, hj, hget⟩
        exact ⟨j + 1, by simpa using hj, by simpa using hget⟩
      · rintro ⟨j, hj, hget⟩
        cases j with
        | zero => exact absurd hget (by simp)
        | succ j => exact ⟨j, by simpa using hj, by simpa using hget⟩
    | dummy =>
      simp only [entries, List.filterMap_cons] at *
      rw [ih]
      constructor
      · rintro ⟨j, hj, hget⟩
        exact ⟨j + 1, by simpa using hj, by simpa using hget⟩
      · rintro ⟨j, hj, hget⟩
        cases j with
        | zero => exact absurd hget (by simp)
        | succ j => exact ⟨j, by simpa using hj, by simpa using hget⟩
    | occupied ka ha va =>
      simp only [entries, List.filterMap_cons, List.mem_cons] at *
      constructor
      · rintro (heq | hmem)
        · have h1 : k = ka ∧ h = ha ∧ v = va := by simpa using heq
          obtain ⟨rfl, rfl, rfl⟩ := h1
          exact ⟨0, by simp, rfl⟩
        · obtain ⟨j, hj, hget⟩ := ih.mp hmem
          exact ⟨j + 1, by simpa using hj, by simpa using hget⟩
      · rintro ⟨j, hj, hget⟩
        cases j with
        | zero =>
          left
          have : Slot.occupied ka ha va = Slot.occupied k h v := hget
          injection this with h1 h2 h3
          rw [h1, h2, h3]
        | succ j =>
          right
          exact ih.mpr ⟨j, by simpa using hj, by simpa using hget⟩

theorem cleanLoop_result (t : List Slot) (mask hash : Nat) :
    ∀ fuel n j, cleanLoop t mask hash fuel n = some j →
      ∃ m0, n ≤ m0 ∧ probeIdx hash mask m0 = j ∧ t.getD j Slot.empty = Slot.empty ∧
        ∀ m, n ≤ m → m < m0 → probeSlot t mask hash m ≠ Slot.empty := by
  intro fuel
  induction fuel with
  | zero =>
    intro n j h
    exact absurd h (by rw [cleanLoop]; simp)
  | succ fuel ih =>
    intro n j h
    rw [cleanLoop] at h
    split at h
    · rename_i hslot
      simp only [Option.some_inj] at h
      exact ⟨n, le_refl _, h, h ▸ hslot, by omega⟩
    · rename_i hslot
      obtain ⟨m0, hm0, hpi, hje, hpre⟩ := ih (n + 1) j h
      refine ⟨m0, by omega, hpi, hje, ?_⟩
      intro m hm1 hm2
      rcases Nat.eq_or_lt_of_le hm1 with he | he
      · rw [← he, probeSlot]
        intro hcon
        exact hslot hcon
      · exact hpre m he hm2

theorem getD_replicate (n j : Nat) :
    (List.replicate n Slot.empty).getD j Slot.empty = Slot.empty := by
  induction n generalizing j with
  | zero => cases j <;> rfl
  | succ n ih =>
    cases j with
    | zero => rfl
    | succ j => simpa [List.replicate_succ] using ih j

theorem entries_pairwise_of_uniq (t : List Slot)
    (huniq : ∀ i j ki hi vi kj hj vj, i < t.length → j < t.length →
      t.getD i Slot.empty = Slot.occupied ki hi vi →
      t.getD j Slot.empty = Slot.occupied kj hj vj → ki = kj → i = j) :
    List.Pairwise (fun a b : Nat × Nat × Nat => a.1 ≠ b.1) (entries t) := by
  induction t with
  | nil => exact List.Pairwise.nil
  | cons a l ih =>
    have huniq2 : ∀ i j ki hi vi kj hj vj, i < l.length → j < l.length →
        l.getD i Slot.empty = Slot.occupied ki hi vi →
        l.getD j Slot.empty = Slot.occupied kj hj vj → ki = kj → i = j := by
      intro i j ki hi vi kj hj vj hi2 hj2 hgi hgj hk
      have := huniq (i + 1) (j + 1) ki hi vi kj hj vj (by simpa using hi2)
        (by simpa using hj2) (by simpa using hgi) (by simpa using hgj) hk
      omega
    cases a with
    | empty => simpa [entries, List.filterMap_cons] using ih huniq2
    | dummy => simpa [entries, List.filterMap_cons] using ih huniq2
    | occupied ka ha va =>
      simp only [entries, List.filterMap_cons]
      refine List.Pairwise.cons ?_ (ih huniq2)
      intro b hb
      obtain ⟨j, hj, hget⟩ := (mem_entries_iff l b.1 b.2.1 b.2.2).mp (by
        have hbe : (b.1, b.2.1, b.2.2) = b := rfl
        rw [hbe]
        exact hb)
      intro hk
      have := huniq 0 (j + 1) ka ha va b.1 b.2.1 b.2.2 (by simp) (by simpa using hj)
        rfl (by simpa using hget) hk
      omega

/-- Writing a fresh key over an Empty or tombstone slot that lies first on
its probe sequence preserves hash agreement, key uniqueness and
findability (the bookkeeping fields are irrelevant to `TablePart`). -/
theorem TablePart_insert_new (d : Dict) (hf : Nat → Nat) (k0 h0 v0 j m0 : Nat)
    (hTP : TablePart d hf)
    (hh : h0 = hf k0) (hnk : ¬ HasKey d.table k0)
    (hjlt : j < d.table.length)
    (hpi : probeIdx h0 d.mask m0 = j)
    (hpre : ∀ m < m0, probeSlot d.table d.mask h0 m ≠ Slot.empty)
    (f u : Nat) :
    TablePart ⟨d.mask, f, u, d.table.set j (Slot.occupied k0 h0 v0)⟩ hf := by
  obtain ⟨hagree, huniq, hfinds⟩ := hTP
  have hgetj : (d.table.set j (Slot.occupied k0 h0 v0)).getD j Slot.empty
      = Slot.occupied k0 h0 v0 := getD_set_self _ _ _ hjlt
  have hgetx : ∀ x, x ≠ j → (d.table.set j (Slot.occupied k0 h0 v0)).getD x Slot.empty
      = d.table.getD x Slot.empty :=
    fun x hx => getD_set_ne _ _ _ _ (fun hjx => hx hjx.symm)
  have hsub := set_nonEmpty_sub d.table j (Slot.occupied k0 h0 v0) (by simp)
  refine ⟨?_, ?_, ?_⟩
  · intro x k h v hx
    by_cases hxj : x = j
    · rw [hxj, hgetj] at hx
      injection hx with h1 h2 h3
      rw [← h1, ← h2]
      exact hh
    · exact hagree x k h v (by rw [hgetx x hxj] at hx; exact hx)
  · intro i1 j1 ki hi vi kj hj vj hi1 hj1 hgi hgj hk
    simp only [List.length_set] at hi1 hj1
    by_cases hij : i1 = j <;> by_cases hjj : j1 = j
    · rw [hij, hjj]
    · exfalso
      rw [hij, hgetj] at hgi
      injection hgi with e1 e2 e3
      rw [hgetx j1 hjj] at hgj
      exact hnk ⟨j1, hj1, hj, vj, by rw [hgj, ← hk, ← e1]⟩
    · exfalso
      rw [hjj, hgetj] at hgj
      injection hgj with e1 e2 e3
      rw [hgetx i1 hij] at hgi
      exact hnk ⟨i1, hi1, hi, vi, by rw [hgi, hk, ← e1]⟩
    · rw [hgetx i1 hij] at hgi
      rw [hgetx j1 hjj] at hgj
      exact huniq i1 j1 ki hi vi kj hj vj hi1 hj1 hgi hgj hk
  · intro x k h v hx hget
    simp only [List.length_set] at hx
    by_cases hxj : x = j
    · rw [hxj, hgetj] at hget
      injection hget with e1 e2 e3
      rw [hxj, ← e2]
      refine ⟨m0, hpi, ?_⟩
      intro m hm
      exact hsub _ (hpre m hm)
    · rw [hgetx x hxj] at hget
      exact FindsAt_mono d.table _ d.mask h x hsub (hfinds x k h v hx hget)

/-- Replacing the value of an existing entry preserves `TablePart`. -/
theorem TablePart_replace (d : Dict) (hf : Nat → Nat) (k0 h0 vold vnew j : Nat)
    (hTP : TablePart d hf)
    (hjlt : j < d.table.length)
    (hslot : d.table.getD j Slot.empty = Slot.occupied k0 h0 vold)
    (f u : Nat) :
    TablePart ⟨d.mask, f, u, d.table.set j (Slot.occupied k0 h0 vnew)⟩ hf := by
  obtain ⟨hagree, huniq, hfinds⟩ := hTP
  have hgetj : (d.table.set j (Slot.occupied k0 h0 vnew)).getD j Slot.empty
      = Slot.occupied k0 h0 vnew := getD_set_self _ _ _ hjlt
  have hgetx : ∀ x, x ≠ j → (d.table.set j (Slot.occupied k0 h0 vnew)).getD x Slot.empty
      = d.table.getD x Slot.empty :=
    fun x hx => getD_set_ne _ _ _ _ (fun hjx => hx hjx.symm)
  have hsub := set_nonEmpty_sub d.table j (Slot.occupied k0 h0 vnew) (by simp)
  refine ⟨?_, ?_, ?_⟩
  · intro x k h v hx
    by_cases hxj : x = j
    · rw [hxj, hgetj] at hx
      injection hx with h1 h2 h3
      rw [← h1, ← h2]
      exact hagree j k0 h0 vold hslot
    · exact hagree x k h v (by rw [hgetx x hxj] at hx; exact hx)
  · intro i1 j1 ki hi vi kj hj vj hi1 hj1 hgi hgj hk
    simp only [List.length_set] at hi1 hj1
    have hgi2 : d.table.getD i1 Slot.empty = Slot.occupied ki hi vi ∨
        (i1 = j ∧ ki = k0) := by
      by_cases hij : i1 = j
      · rw [hij, hgetj] at hgi
        injection hgi with e1 e2 e3
        exact Or.inr ⟨hij, e1.symm⟩
      · rw [hgetx i1 hij] at hgi
        exact Or.inl hgi
    have hgj2 : d.table.getD j1 Slot.empty = Slot.occupied kj hj vj ∨
        (j1 = j ∧ kj = k0) := by
      by_cases hjj : j1 = j
      · rw [hjj, hgetj] at hgj
        injection hgj with e1 e2 e3
        exact Or.inr ⟨hjj, e1.symm⟩
      · rw [hgetx j1 hjj] at hgj
        exact Or.inl hgj
    rcases hgi2 with hgi2 | ⟨hi2, hik⟩ <;> rcases hgj2 with hgj2 | ⟨hj2, hjk⟩
    · exact huniq i1 j1 ki hi vi kj hj vj hi1 hj1 hgi2 hgj2 hk
    · rw [hj2]
      exact huniq i1 j ki hi vi k0 h0 vold hi1 hjlt hgi2 hslot (by rw [← hjk, hk])
    · rw [hi2]
      exact (huniq j1 j kj hj vj k0 h0 vold hj1 hjlt hgj2 hslot (by rw [← hik, ← hk])).symm
    · rw [hi2, hj2]
  · intro x k h v hx hget
    simp only [List.length_set] at hx
    by_cases hxj : x = j
    · rw [hxj, hgetj] at hget
      injection hget with e1 e2 e3
      have hFA := hfinds j k0 h0 vold hjlt hslot
      rw [hxj, ← e2]
      exact FindsAt_mono d.table _ d.mask h0 j hsub hFA
    · rw [hgetx x hxj] at hget
      exact FindsAt_mono d.table _ d.mask h x hsub (hfinds x k h v hx hget)

theorem HasKey_set_new (t : List Slot) (j k0 h0 v0 : Nat) :
    ∀ k, HasKey (t.set j (Slot.occupied k0 h0 v0)) k → k = k0 ∨ HasKey t k := by
  intro k ⟨x, hx, h, v, hget⟩
  simp only [List.length_set] at hx
  by_cases hxj : x = j
  · subst hxj
    by_cases hlt : x < t.length
    · rw [getD_set_self _ _ _ hlt] at hget
      injection hget with e1 e2 e3
      exact Or.inl e1.symm
    · omega
  · rw [getD_set_ne _ _ _ _ (fun hjx => hxj hjx.symm)] at hget
    exact Or.inr ⟨x, hx, h, v, hget⟩

/-- The rehash loop of `dictresize` preserves the full table invariant:
given a well-formed target and pending entries with fresh, pairwise
distinct keys and agreeing hashes, whatever table it produces is again
well-formed at the table level. -/
theorem rehashLoop_WF (hf : Nat → Nat) :
    ∀ (old : List Slot) (i : Nat) (d0 : Dict),
      TablePart d0 hf →
      d0.table.length = d0.mask + 1 →
      (∀ k h v, (k, h, v) ∈ entries old → h = hf k ∧ ¬ HasKey d0.table k) →
      List.Pairwise (fun a b : Nat × Nat × Nat => a.1 ≠ b.1) (entries old) →
      ∀ e, rehashLoop d0 old i = some e →
        TablePart e hf := by
  intro old
  induction old with
  | nil =>
    intro i d0 hTP hlen hkeys hpw e heq
    have he : d0 = e := by
      cases i with
      | zero => exact Option.some_inj.mp heq
      | succ i => exact Option.some_inj.mp heq
    exact he ▸ hTP
  | cons s rest ih =>
    intro i d0 hTP hlen hkeys hpw e heq
    cases i with
    | zero => exact (Option.some_inj.mp heq) ▸ hTP
    | succ i =>
      cases s with
      | empty => exact ih (i + 1) d0 hTP hlen hkeys hpw e heq
      | dummy => exact ih i d0 hTP hlen hkeys hpw e heq
      | occupied k0 h0 v0 =>
        have hhead : (k0, h0, v0) ∈ entries (Slot.occupied k0 h0 v0 :: rest) := by
          simp [entries, List.filterMap_cons]
        obtain ⟨hh0, hnk0⟩ := hkeys k0 h0 v0 hhead
        have hentc : entries (Slot.occupied k0 h0 v0 :: rest) = (k0, h0, v0) :: entries rest := by
          simp [entries, List.filterMap_cons]
        rw [hentc] at hpw
        have hpw2 := List.Pairwise.of_cons hpw
        have hhead_ne : ∀ b ∈ entries rest, k0 ≠ b.1 := (List.pairwise_cons.mp hpw).1
        cases hclean : insertdict_clean d0 k0 h0 v0 with
        | none =>
          rw [rehashLoop, hclean] at heq
          exact absurd heq (by simp)
        | some e1 =>
          rw [rehashLoop, hclean] at heq
          cases hloop : cleanLoop d0.table d0.mask h0 (h0 + d0.mask + 3) 0 with
          | none =>
            rw [insertdict_clean, hloop] at hclean
            exact absurd hclean (by simp)
          | some j =>
            have he1 : e1 = ⟨d0.mask, d0.fill + 1, d0.used + 1,
                d0.table.set j (Slot.occupied k0 h0 v0)⟩ := by
              rw [insertdict_clean, hloop] at hclean
              exact (Option.some_inj.mp hclean).symm
            obtain ⟨m0, _, hpi, hje, hpre⟩ :=
              cleanLoop_result d0.table d0.mask h0 _ 0 j hloop
            have hjlt : j < d0.table.length := by
              have := probeIdx_lt h0 d0.mask m0
              omega
            have hTP1 : TablePart e1 hf := by
              rw [he1]
              exact TablePart_insert_new d0 hf k0 h0 v0 j m0 ⟨hTP.1, hTP.2.1, hTP.2.2⟩
                hh0 hnk0 hjlt hpi (fun m hm => hpre m (Nat.zero_le _) hm) _ _
            have hlen1 : e1.table.length = e1.mask + 1 := by
              rw [he1]
              simpa [List.length_set] using hlen
            have hkeys1 : ∀ k h v, (k, h, v) ∈ entries rest → h = hf k ∧ ¬ HasKey e1.table k := by
              intro k h v hmem
              have hk := hkeys k h v (by rw [hentc]; exact List.mem_cons_of_mem _ hmem)
              refine ⟨hk.1, ?_⟩
              intro hhk
              have hhk1 : HasKey (d0.table.set j (Slot.occupied k0 h0 v0)) k := by
                rw [he1] at hhk
                exact hhk
              rcases HasKey_set_new d0.table j k0 h0 v0 k hhk1 with hkk | hold
              · exact hhead_ne (k, h, v) hmem (by rw [hkk])
              · exact hk.2 hold
            exact ih i e1 hTP1 hlen1 hkeys1 hpw2 e heq

theorem dictresize_WF (d : Dict) (minused : Nat) (hf : Nat → Nat)
    (hpre : PreInv d) (hused : d.used ≤ minused) (hTP : TablePart d hf) :
    ∃ e, dictresize true d minused = some (e, true) ∧ DictWF e hf ∧
      (entries e.table).Perm (entries d.table) := by
  obtain ⟨e, heq, hInv, hperm, hdisj⟩ := dictresize_spec d minused hpre hused
  refine ⟨e, heq, ⟨hInv, ?_⟩, hperm⟩
  by_cases hcond : newsizeFor minused = PyDict_MINSIZE ∧ d.mask + 1 = PyDict_MINSIZE ∧
      d.fill = d.used
  · -- immediate return: the table is unchanged
    have : some (d, true) = some (e, true) := by rw [← heq, dictresize, if_pos hcond]
    have hde : d = e := congrArg Prod.fst (Option.some_inj.mp this)
    exact hde ▸ hTP
  · -- rebuilt from scratch
    have hnot2 : ¬ (newsizeFor minused ≠ PyDict_MINSIZE ∧ true = false) := by simp
    have heq2 : (match rehashLoop
        { mask := newsizeFor minused - 1, fill := 0, used := 0,
          table := List.replicate (newsizeFor minused) Slot.empty } d.table d.fill with
      | none => none
      | some e => some (e, true)) = some (e, true) := by
      rw [← heq, dictresize, if_neg hcond, if_neg hnot2]
    cases hre : rehashLoop
        { mask := newsizeFor minused - 1, fill := 0, used := 0,
          table := List.replicate (newsizeFor minused) Slot.empty } d.table d.fill with
    | none => rw [hre] at heq2; exact absurd heq2 (by simp)
    | some e2 =>
      rw [hre] at heq2
      have he2 : e2 = e := by
        have := Option.some_inj.mp heq2
        exact congrArg Prod.fst this
      obtain ⟨hgt, h8, K, hK3, hKeq⟩ := newsizeFor_spec minused
      have hbaseTP : TablePart
          { mask := newsizeFor minused - 1, fill := 0, used := 0,
            table := List.replicate (newsizeFor minused) Slot.empty } hf := by
        refine ⟨?_, ?_, ?_⟩
        · intro j k h v hget
          rw [getD_replicate] at hget
          exact absurd hget (by simp)
        · intro i j ki hi vi kj hj vj _ _ hget _ _
          rw [getD_replicate] at hget
          exact absurd hget (by simp)
        · intro j k h v _ hget
          rw [getD_replicate] at hget
          exact absurd hget (by simp)
      have hkeys : ∀ k h v, (k, h, v) ∈ entries d.table →
          h = hf k ∧ ¬ HasKey (List.replicate (newsizeFor minused) Slot.empty) k := by
        intro k h v hmem
        obtain ⟨j, hj, hget⟩ := (mem_entries_iff d.table k h v).mp hmem
        refine ⟨hTP.1 j k h v hget, ?_⟩
        rintro ⟨x, hx, h2, v2, hget2⟩
        rw [getD_replicate] at hget2
        exact absurd hget2 (by simp)
      have hpw := entries_pairwise_of_uniq d.table hTP.2.1
      have := rehashLoop_WF hf d.table d.fill
        { mask := newsizeFor minused - 1, fill := 0, used := 0,
          table := List.replicate (newsizeFor minused) Slot.empty }
        hbaseTP (by simp [List.length_replicate]; omega) hkeys hpw e2 hre
      exact he2 ▸ this

theorem insertdict_WF (d : Dict) (hf : Nat → Nat) (key v : Nat) (hWF : DictWF d hf) :
    ∃ e, insertdict d key (hf key) v = some e ∧
      e.mask = d.mask ∧ PreInv e ∧ TablePart e hf ∧
      (∃ j < e.table.length, e.table.getD j Slot.empty = Slot.occupied key (hf key) v) ∧
      ((e.used = d.used ∧ e.fill = d.fill) ∨
        (e.used = d.used + 1 ∧ e.fill = d.fill) ∨
        (e.used = d.used + 1 ∧ e.fill = d.fill + 1)) := by
  obtain ⟨e0, heq0, hmask0, hpre0, hdisj0⟩ := insertdict_spec d key (hf key) v hWF.1
  by_cases hk : HasKey d.table key
  · obtain ⟨j, hjlt, h0, v0, hslot⟩ := hk
    have hh0 : h0 = hf key := hWF.2.1 j key h0 v0 hslot
    have hlook : lookdict d key (hf key) = some j := by
      rw [← hh0]
      exact lookdict_finds d hf key h0 v0 j hWF hjlt hslot
    have heqI : insertdict d key (hf key) v =
        some ⟨d.mask, d.fill, d.used, d.table.set j (Slot.occupied key h0 v)⟩ := by
      simp only [insertdict, hlook, hslot]
    rw [heqI] at heq0
    have he0 := Option.some_inj.mp heq0
    rw [← he0] at hpre0 hdisj0
    refine ⟨_, heqI, rfl, hpre0, ?_, ?_, hdisj0⟩
    · exact TablePart_replace d hf key h0 v0 v j hWF.2 hjlt hslot d.fill d.used
    · refine ⟨j, ?_, ?_⟩
      · simpa [List.length_set] using hjlt
      · rw [show (⟨d.mask, d.fill, d.used,
            d.table.set j (Slot.occupied key h0 v)⟩ : Dict).table
            = d.table.set j (Slot.occupied key h0 v) from rfl,
          getD_set_self _ _ _ hjlt, hh0]
  · have hno : ∀ j k2 h2 v2, j < d.table.length →
        d.table.getD j Slot.empty = Slot.occupied k2 h2 v2 → k2 ≠ key := by
      intro j k2 h2 v2 hj hget hkk
      exact hk ⟨j, hj, h2, v2, by rw [hget, hkk]⟩
    obtain ⟨i, m0, hlook, hpi, hcases, hpre⟩ := lookdict_absent d key (hf key) hWF.1 hno
    have hilt : i < d.table.length := by
      have := probeIdx_lt (hf key) d.mask m0
      have hlen := hWF.1.1.2.1
      omega
    rcases hcases with hslot | hslot
    · have heqI : insertdict d key (hf key) v =
          some ⟨d.mask, d.fill + 1, d.used + 1,
            d.table.set i (Slot.occupied key (hf key) v)⟩ := by
        simp only [insertdict, hlook, hslot]
      rw [heqI] at heq0
      have he0 := Option.some_inj.mp heq0
      rw [← he0] at hpre0 hdisj0
      refine ⟨_, heqI, rfl, hpre0, ?_, ?_, hdisj0⟩
      · exact TablePart_insert_new d hf key (hf key) v i m0 hWF.2 rfl hk hilt hpi hpre _ _
      · refine ⟨i, ?_, ?_⟩
        · simpa [List.length_set] using hilt
        · exact getD_set_self _ _ _ hilt
    · have heqI : insertdict d key (hf key) v =
          some ⟨d.mask, d.fill, d.used + 1,
            d.table.set i (Slot.occupied key (hf key) v)⟩ := by
        simp only [insertdict, hlook, hslot]
      rw [heqI] at heq0
      have he0 := Option.some_inj.mp heq0
      rw [← he0] at hpre0 hdisj0
      refine ⟨_, heqI, rfl, hpre0, ?_, ?_, hdisj0⟩
      · exact TablePart_insert_new d hf key (hf key) v i m0 hWF.2 rfl hk hilt hpi hpre _ _
      · refine ⟨i, ?_, ?_⟩
        · simpa [List.length_set] using hilt
        · exact getD_set_self _ _ _ hilt

theorem PyDict_SetItem_WF (d : Dict) (hf : Nat → Nat) (key v : Nat) (hWF : DictWF d hf) :
    ∃ e, PyDict_SetItem d key (hf key) v = some e ∧ DictWF e hf ∧
      ∃ j < e.table.length, e.table.getD j Slot.empty = Slot.occupied key (hf key) v := by
  obtain ⟨e1, hins, hmask1, hpre1, hTP1, hcont1, hdisj⟩ := insertdict_WF d hf key v hWF
  have h8 : 8 ≤ e1.mask + 1 := by
    obtain ⟨⟨k, hk3, hm⟩, _, _, _⟩ := hpre1
    have : (2 : Nat) ^ 3 ≤ 2 ^ k := Nat.pow_le_pow_right (by norm_num) hk3
    omega
  by_cases hcond : e1.used > d.used ∧ e1.fill * 3 ≥ (e1.mask + 1) * 2
  · have hused1 : e1.used ≤ (if e1.used > 50000 then 2 else 4) * e1.used := by
      split <;> omega
    obtain ⟨e2, hres, hWF2, hperm⟩ := dictresize_WF e1 _ hf hpre1 hused1 hTP1
    refine ⟨e2, ?_, hWF2, ?_⟩
    · simp only [PyDict_SetItem, hins]
      split
      · rename_i hcontra
        exact absurd hcond hcontra
      · rw [hres]
    · obtain ⟨j, hj, hget⟩ := hcont1
      have hmem : (key, hf key, v) ∈ entries e1.table := (mem_entries_iff _ _ _ _).mpr ⟨j, hj, hget⟩
      have hmem2 : (key, hf key, v) ∈ entries e2.table := hperm.mem_iff.mpr hmem
      exact (mem_entries_iff _ _ _ _).mp hmem2
  · refine ⟨e1, ?_, ⟨⟨hpre1, ?_⟩, hTP1⟩, hcont1⟩
    · simp only [PyDict_SetItem, hins]
      split
      · rfl
      · rename_i hcontra
        exact absurd hcond hcontra
    · have hled : d.fill ≤ d.mask := hWF.1.2
      rcases hdisj with ⟨hu, hfe⟩ | ⟨hu, hfe⟩ | ⟨hu, hfe⟩
      · omega
      · omega
      · have h3f : ¬ (e1.fill * 3 ≥ (e1.mask + 1) * 2) := by
          intro hge
          exact hcond ⟨by omega, hge⟩
        omega

theorem DictWF_new (hf : Nat → Nat) : DictWF PyDict_New hf := by
  refine ⟨DictInv_new, ?_, ?_, ?_⟩
  · intro j k h v hget
    rw [show PyDict_New.table = List.replicate 8 Slot.empty from rfl, getD_replicate] at hget
    exact absurd hget (by simp)
  · intro i j ki hi vi kj hj vj _ _ hget _ _
    rw [show PyDict_New.table = List.replicate 8 Slot.empty from rfl, getD_replicate] at hget
    exact absurd hget (by simp)
  · intro j k h v _ hget
    rw [show PyDict_New.table = List.replicate 8 Slot.empty from rfl, getD_replicate] at hget
    exact absurd hget (by simp)

theorem one_le_occCount (t : List Slot) (j : Nat) (hj : j < t.length) (k h v : Nat)
    (hget : t.getD j Slot.empty = Slot.occupied k h v) : 1 ≤ occCount t := by
  have hmem : Slot.occupied k h v ∈ t := by
    rw [← hget, List.getD_eq_getElem t Slot.empty hj]
    exact List.getElem_mem hj
  have : 0 < t.countP Slot.isOccupied :=
    List.countP_pos_iff.mpr ⟨_, hmem, by simp [Slot.isOccupied]⟩
  exact this

theorem iterScan_spec (t : List Slot) (mask : Nat) :
    ∀ fuel p, mask + 1 ≤ p + fuel →
      p ≤ iterScan t mask fuel p ∧
      (∀ x, p ≤ x → x < iterScan t mask fuel p →
        (t.getD x Slot.empty).isOccupied = false) ∧
      (iterScan t mask fuel p ≤ mask →
        (t.getD (iterScan t mask fuel p) Slot.empty).isOccupied = true) ∧
      iterScan t mask fuel p ≤ mask + 1 ∨
      iterScan t mask fuel p = p ∧ mask < p := by
  intro fuel
  induction fuel with
  | zero =>
    intro p hp
    right
    exact ⟨rfl, by omega⟩
  | succ fuel ih =>
    intro p hp
    rw [iterScan]
    by_cases hc : p ≤ mask ∧ (t.getD p Slot.empty).isOccupied = false
    · rw [if_pos hc]
      rcases ih (p + 1) (by omega) with ⟨h1, h2, h3, h4⟩ | ⟨h1, h2⟩
      · left
        refine ⟨by omega, ?_, h3, h4⟩
        intro x hx1 hx2
        rcases Nat.eq_or_lt_of_le hx1 with he | he
        · rw [← he]; exact hc.2
        · exact h2 x he hx2
      · left
        rw [h1]
        refine ⟨by omega, ?_, ?_, by omega⟩
        · intro x hx1 hx2
          have hxp : x = p := by omega
          rw [hxp]; exact hc.2
        · intro hle
          exact absurd hle (by omega)
    · rw [if_neg hc]
      by_cases hpm : p ≤ mask
      · left
        have hocc : (t.getD p Slot.empty).isOccupied = true := by
          cases hb : (t.getD p Slot.empty).isOccupied
          · exact absurd ⟨hpm, hb⟩ hc
          · rfl
        exact ⟨le_refl _, fun x hx1 hx2 => by omega, fun _ => hocc, by omega⟩
      · right
        exact ⟨rfl, by omega⟩

theorem occKeys_empty_from (t : List Slot) :
    ∀ fuel p, t.length - p ≤ fuel →
      (∀ x, p ≤ x → x < t.length → (t.getD x Slot.empty).isOccupied = false) →
      occupiedKeys (t.drop p) = [] := by
  intro fuel
  induction fuel with
  | zero =>
    intro p hp _
    rw [List.drop_eq_nil_of_le (by omega)]
    rfl
  | succ fuel ih =>
    intro p hp hno
    by_cases hlt : p < t.length
    · rw [List.drop_eq_getElem_cons hlt]
      have hocc := hno p (le_refl _) hlt
      rw [List.getD_eq_getElem t Slot.empty hlt] at hocc
      have hrest := ih (p + 1) (by omega) (fun x hx1 hx2 => hno x (by omega) hx2)
      cases hs : t[p] with
      | empty => simpa [occupiedKeys, List.filterMap_cons, hs] using hrest
      | dummy => simpa [occupiedKeys, List.filterMap_cons, hs] using hrest
      | occupied k h v => rw [hs] at hocc; simp [Slot.isOccupied] at hocc
    · rw [List.drop_eq_nil_of_le (by omega)]
      rfl

theorem occKeys_step (t : List Slot) :
    ∀ fuel p j k h v, j - p ≤ fuel → p ≤ j → j < t.length →
      (∀ x, p ≤ x → x < j → (t.getD x Slot.empty).isOccupied = false) →
      t.getD j Slot.empty = Slot.occupied k h v →
      occupiedKeys (t.drop p) = k :: occupiedKeys (t.drop (j + 1)) := by
  intro fuel
  induction fuel with
  | zero =>
    intro p j k h v hf hpj hj hno hget
    have hpje : p = j := by omega
    subst hpje
    rw [List.drop_eq_getElem_cons hj]
    rw [List.getD_eq_getElem t Slot.empty hj] at hget
    simp [occupiedKeys, List.filterMap_cons, hget]
  | succ fuel ih =>
    intro p j k h v hf hpj hj hno hget
    rcases Nat.eq_or_lt_of_le hpj with hpje | hpje
    · subst hpje
      rw [List.drop_eq_getElem_cons hj]
      rw [List.getD_eq_getElem t Slot.empty hj] at hget
      simp [occupiedKeys, List.filterMap_cons, hget]
    · have hplt : p < t.length := by omega
      rw [List.drop_eq_getElem_cons hplt]
      have hocc := hno p (le_refl _) hpje
      rw [List.getD_eq_getElem t Slot.empty hplt] at hocc
      have hrest := ih (p + 1) j k h v (by omega) (by omega) hj
        (fun x hx1 hx2 => hno x (by omega) hx2) hget
      cases hs : t[p] with
      | empty => simpa [occupiedKeys, List.filterMap_cons, hs] using hrest
      | dummy => simpa [occupiedKeys, List.filterMap_cons, hs] using hrest
      | occupied k2 h2 v2 => rw [hs] at hocc; simp [Slot.isOccupied] at hocc

theorem iternext_yield (d : Dict) (l : Int) (p i k h v : Nat)
    (hi : iterScan d.table d.mask (d.mask + 2 - p) p = i)
    (hslot : d.table.getD i Slot.empty = Slot.occupied k h v)
    (him : i ≤ d.mask) :
    dictiter_iternextkey d ⟨true, (d.used : Int), (p : Int), l⟩ =
      (IterResult.yield k, ⟨true, (d.used : Int), (i : Int) + 1, l - 1⟩) := by
  have hneg : ¬((p : Int) < 0) := by omega
  have hslot2 : (d.table[i]?).getD Slot.empty = Slot.occupied k h v := by
    rw [← List.getD_eq_getElem?_getD]; exact hslot
  simp [dictiter_iternextkey, hi, hslot2, him, hneg]

theorem iternext_exhaust (d : Dict) (l : Int) (p i : Nat)
    (hi : iterScan d.table d.mask (d.mask + 2 - p) p = i)
    (hslot : d.table.getD i Slot.empty = Slot.empty) :
    dictiter_iternextkey d ⟨true, (d.used : Int), (p : Int), l⟩ =
      (IterResult.exhausted, ⟨false, (d.used : Int), (i : Int) + 1, l⟩) := by
  have hneg : ¬((p : Int) < 0) := by omega
  have hslot2 : (d.table[i]?).getD Slot.empty = Slot.empty := by
    rw [← List.getD_eq_getElem?_getD]; exact hslot
  simp [dictiter_iternextkey, hi, hslot2, hneg]

theorem iterRun_spec (d : Dict) (hlen : d.table.length = d.mask + 1) :
    ∀ fuel p l, d.mask + 2 - p ≤ fuel →
      iterRun d ⟨true, (d.used : Int), (p : Int), l⟩ fuel =
        occupiedKeys (d.table.drop p) := by
  intro fuel
  induction fuel with
  | zero =>
    intro p l hfuel
    rw [List.drop_eq_nil_of_le (by omega)]
    rfl
  | succ fuel ih =>
    intro p l hfuel
    rcases iterScan_spec d.table d.mask (d.mask + 2 - p) p (by omega)
      with ⟨h1, h2, h3, h4⟩ | ⟨h1, h2⟩
    · by_cases him : iterScan d.table d.mask (d.mask + 2 - p) p ≤ d.mask
      · have hocc := h3 him
        cases hslot : d.table.getD (iterScan d.table d.mask (d.mask + 2 - p) p)
            Slot.empty with
        | empty => rw [hslot] at hocc; simp [Slot.isOccupied] at hocc
        | dummy => rw [hslot] at hocc; simp [Slot.isOccupied] at hocc
        | occupied k h v =>
          simp only [iterRun, iternext_yield d l p _ k h v rfl hslot him]
          rw [occKeys_step d.table (iterScan d.table d.mask (d.mask + 2 - p) p) p
            (iterScan d.table d.mask (d.mask + 2 - p) p) k h v (by omega) h1
            (by omega) h2 hslot]
          have hrec := ih (iterScan d.table d.mask (d.mask + 2 - p) p + 1) (l - 1)
            (by omega)
          push_cast at hrec
          rw [hrec]
      · have hslot : d.table.getD (iterScan d.table d.mask (d.mask + 2 - p) p)
            Slot.empty = Slot.empty := List.getD_eq_default _ _ (by omega)
        simp only [iterRun, iternext_exhaust d l p _ rfl hslot]
        exact (occKeys_empty_from d.table d.table.length p (by omega)
          (fun x hx1 hx2 => h2 x hx1 (by omega))).symm
    · have hslot : d.table.getD (iterScan d.table d.mask (d.mask + 2 - p) p)
          Slot.empty = Slot.empty := List.getD_eq_default _ _ (by omega)
      simp only [iterRun, iternext_exhaust d l p _ rfl hslot]
      rw [List.drop_eq_nil_of_le (by omega)]
      rfl

/-- The `PyDict_GetItem` returns the stored value of a present key. -/
theorem get_found (d : Dict) (hf : Nat → Nat) (key v j : Nat) (hWF : DictWF d hf)
    (hj : j < d.table.length)
    (hslot : d.table.getD j Slot.empty = Slot.occupied key (hf key) v) :
    PyDict_GetItem d key (hf key) = some v := by
  have hlook := lookdict_finds d hf key (hf key) v j hWF hj hslot
  have hslot2 : (d.table[j]?).getD Slot.empty = Slot.occupied key (hf key) v := by
    rw [← List.getD_eq_getElem?_getD]; exact hslot
  simp [PyDict_GetItem, hlook, hslot2]

/-- The `PyDict_GetItem` returns `NULL` when no slot holds the key. -/
theorem get_absent (d : Dict) (key h : Nat) (hInv : DictInv d)
    (hno : ∀ j k2 h2 v2, j < d.table.length →
      d.table.getD j Slot.empty = Slot.occupied k2 h2 v2 → k2 ≠ key) :
    PyDict_GetItem d key h = none := by
  obtain ⟨i, m0, hlook, hpi, hcases, hpre⟩ := lookdict_absent d key h hInv hno
  rcases hcases with hslot | hslot
  · have hslot2 : (d.table[i]?).getD Slot.empty = Slot.empty := by
      rw [← List.getD_eq_getElem?_getD]; exact hslot
    simp [PyDict_GetItem, hlook, hslot2]
  · have hslot2 : (d.table[i]?).getD Slot.empty = Slot.dummy := by
      rw [← List.getD_eq_getElem?_getD]; exact hslot
    simp [PyDict_GetItem, hlook, hslot2]

theorem D1_WF : DictWF D1 (fun k => k) := by
  obtain ⟨e, heq, hWFe, _⟩ := PyDict_SetItem_WF PyDict_New (fun k => k) 3 42 (DictWF_new _)
  have h2 : PyDict_SetItem PyDict_New 3 3 42 = some D1 := by decide
  have he : e = D1 := by
    rw [h2] at heq
    exact (Option.some_inj.mp heq).symm
  exact he ▸ hWFe

theorem growCexDict_inv : DictInv growCexDict :=
  ⟨⟨⟨3, le_refl 3, rfl⟩, rfl, rfl, rfl⟩, by norm_num [growCexDict]⟩

/-- C1: every dictionary state reachable from a fresh table by insert,
delete and resize operations satisfies `used ≤ fill ≤ mask`, keeps at
least one Empty slot in the table, and consequently every probe sequence
reaches an Empty slot. -/
theorem C1_reachable_invariant (d : Dict) (h : DictReachable d) :
    d.used ≤ d.fill ∧ d.fill ≤ d.mask ∧
    (∃ j < d.table.length, d.table.getD j Slot.empty = Slot.empty) ∧
    ∀ hash, ∃ m, probeSlot d.table d.mask hash m = Slot.empty := by
  have hInv := DictReachable_inv h
  obtain ⟨⟨⟨k, hk3, hmask⟩, hlen, hfill, husedc⟩, hle⟩ := hInv
  have hInv2 : DictInv d := ⟨⟨⟨k, hk3, hmask⟩, hlen, hfill, husedc⟩, hle⟩
  refine ⟨?_, hle, DictInv.empty_slot d hInv2, ?_⟩
  · rw [hfill, husedc]
    exact occCount_le_nonEmptyCount _
  · intro hash
    obtain ⟨m, _, hm⟩ := exists_empty_probe d.table d.mask hash k hmask hlen
      (DictInv.empty_slot d hInv2)
    exact ⟨m, hm⟩

theorem C1_witness :
    D1.used ≤ D1.fill ∧ D1.fill ≤ D1.mask ∧
    (∃ j < D1.table.length, D1.table.getD j Slot.empty = Slot.empty) ∧
    ∀ hash, ∃ m, probeSlot D1.table D1.mask hash m = Slot.empty :=
  C1_reachable_invariant D1
    (DictReachable.step DictReachable.base (DictStep.set 3 3 42 (by decide)))

/-- C2: on a well-formed table, `set(k, hf k, v)` (`PyDict_SetItem`)
followed immediately by `get(k, hf k)` (`PyDict_GetItem`) returns exactly
`v`, for every key, hash function and value. -/
theorem C2_set_get_roundtrip (d : Dict) (hf : Nat → Nat) (key v : Nat)
    (hWF : DictWF d hf) :
    ∃ e, PyDict_SetItem d key (hf key) v = some e ∧
      PyDict_GetItem e key (hf key) = some v := by
  obtain ⟨e, hset, hWFe, j, hj, hget⟩ := PyDict_SetItem_WF d hf key v hWF
  exact ⟨e, hset, get_found e hf key v j hWFe hj hget⟩

theorem C2_witness :
    ∃ e, PyDict_SetItem PyDict_New 3 ((fun k => k) 3) 42 = some e ∧
      PyDict_GetItem e 3 ((fun k => k) 3) = some 42 :=
  C2_set_get_roundtrip PyDict_New (fun k => k) 3 42 (DictWF_new _)

/-- C5: a successful `dictresize` leaves the stored (key, hash, value)
triples exactly the same (as a multiset, hence as a set). -/
theorem C5_resize_preserves_entries (d : Dict) (minused : Nat)
    (hpre : PreInv d) (hused : d.used ≤ minused) :
    ∃ e, dictresize true d minused = some (e, true) ∧
      (entries e.table).Perm (entries d.table) ∧
      ∀ k h v, (k, h, v) ∈ entries e.table ↔ (k, h, v) ∈ entries d.table := by
  obtain ⟨e, heq, _, hperm, _⟩ := dictresize_spec d minused hpre hused
  exact ⟨e, heq, hperm, fun k h v => hperm.mem_iff⟩

theorem C5_witness :
    ∃ e, dictresize true D1 16 = some (e, true) ∧
      (entries e.table).Perm (entries D1.table) ∧
      ∀ k h v, (k, h, v) ∈ entries e.table ↔ (k, h, v) ∈ entries D1.table :=
  C5_resize_preserves_entries D1 16 ⟨⟨3, le_refl 3, rfl⟩, rfl, rfl, rfl⟩ (by decide)

/-- C7: the string hash of the empty string is 0, the hash never equals
the error sentinel `-1`, and whenever the raw computation produces `-1`
the placeholder `-2` is returned instead — for every prefix/suffix secret,
every byte string, and both the plain and the tabulation configuration. -/
theorem C7_string_hash (pfx sfx : Nat) (tabulation : Bool)
    (tables : Nat → Nat → Nat) (s : List Nat) :
    string_hash pfx sfx tabulation tables [] = 0 ∧
    string_hash pfx sfx tabulation tables s ≠ MINUS1 ∧
    (string_hash_raw pfx sfx tabulation tables s = MINUS1 →
      string_hash pfx sfx tabulation tables s = MINUS2) := by
  have h12 : MINUS2 ≠ MINUS1 := by norm_num [MINUS1, MINUS2, W64]
  have h01 : (0 : Nat) ≠ MINUS1 := by norm_num [MINUS1, W64]
  refine ⟨rfl, ?_, ?_⟩
  · cases s with
    | nil => exact h01
    | cons c rest =>
      rw [string_hash]
      split
      · exact h12
      · assumption
  · intro hraw
    cases s with
    | nil => exact absurd hraw h01
    | cons c rest =>
      rw [string_hash, if_pos hraw]

theorem C7_witness :
    string_hash_raw 0 MINUS2 false (fun _ _ => 0) [0] = MINUS1 ∧
    string_hash 0 MINUS2 false (fun _ _ => 0) [0] = MINUS2 :=
  ⟨by decide, (C7_string_hash 0 MINUS2 false (fun _ _ => 0) [0]).2.2 (by decide)⟩

/-- C8: when the new table's allocation fails (`alloc = false`, possible
exactly when a real allocation is needed, i.e. the chosen size is not the
inline minimum), `dictresize` reports failure with the dictionary fully
intact: mask, fill, used, the slot table and hence all stored entries are
unchanged. -/
theorem C8_alloc_failure (d : Dict) (minused : Nat)
    (hbig : newsizeFor minused ≠ PyDict_MINSIZE) :
    ∃ e, dictresize false d minused = some (e, false) ∧
      e.mask = d.mask ∧ e.fill = d.fill ∧ e.used = d.used ∧
      e.table = d.table ∧ entries e.table = entries d.table := by
  refine ⟨d, ?_, rfl, rfl, rfl, rfl, rfl⟩
  rw [dictresize, if_neg ?_, if_pos ⟨hbig, rfl⟩]
  rintro ⟨h1, _⟩
  exact hbig h1

theorem C8_witness :
    newsizeFor 100 ≠ PyDict_MINSIZE ∧
    ∃ e, dictresize false PyDict_New 100 = some (e, false) ∧
      e.mask = PyDict_New.mask ∧ e.fill = PyDict_New.fill ∧
      e.used = PyDict_New.used ∧ e.table = PyDict_New.table ∧
      entries e.table = entries PyDict_New.table :=
  ⟨by decide, C8_alloc_failure PyDict_New 100 (by decide)⟩

/-- C3 counterexample: for table size `S = 8` and starting hash 32, eight
iterations of the perturbation probe visit index 0 twice (at steps 0 and
7) and never visit index 6, so the perturbation variant does **not**
visit each of the `S` indices exactly once in `S` steps (the linear
variant does). -/
theorem C3_counterexample :
    (∀ n, n < 8 → probeCodeIdx 32 7 n ≠ 6) ∧
    probeCodeIdx 32 7 0 = 0 ∧ probeCodeIdx 32 7 7 = 0 := by decide

/-- C3 (amended): iterated `S` times from any starting hash, the linear
probe visits each of the `S` indices exactly once; the perturbation probe
visits every index at least once, but only within `S + 13` iterations
(and it may revisit indices), not necessarily within the first `S`. -/
theorem C3_probe_coverage (h k : Nat) (hk : k ≤ 64) :
    (∀ j < 2 ^ k, ∃! n, n < 2 ^ k ∧ linearCodeIdx h (2 ^ k - 1) n = j) ∧
    (∀ j < 2 ^ k, ∃ n < 13 + 2 ^ k, probeCodeIdx h (2 ^ k - 1) n = j) :=
  ⟨linear_exactly_once h k hk, perturb_coverage_code h k hk⟩

theorem C3_witness :
    (3 ≤ 64) ∧
    (∀ j < 2 ^ 3, ∃! n, n < 2 ^ 3 ∧ linearCodeIdx 5 (2 ^ 3 - 1) n = j) ∧
    (∀ j < 2 ^ 3, ∃ n < 13 + 2 ^ 3, probeCodeIdx 5 (2 ^ 3 - 1) n = j) :=
  ⟨by decide, C3_probe_coverage 5 3 (by decide)⟩

/-- C4 counterexample: in a size-8 table with 3 live keys and 2
tombstones, inserting a fourth key triggers a grow with target
`4 * used = 16`; `16` itself is a power of two that is `≥ 16` and `≥ 8`,
yet the new table size is `32`, because the code picks the least power of
two **strictly greater** than the target, not the least one `≥` it. -/
theorem C4_counterexample :
    (PyDict_SetItem growCexDict 13 4 99).map (fun e => (e.mask + 1, e.used)) =
      some (32, 4) ∧
    (if (4 : Nat) > 50000 then 2 else 4) * 4 = 16 ∧
    (16 : Nat) = 2 ^ 4 ∧ newsizeFor 16 = 32 := by decide

/-- C4 (amended): after an insert (`PyDict_SetItem`) that increased
`used` and made `fill*3 ≥ (mask+1)*2`, the table is resized to
`newsizeFor target` with target `(used > 50000 ? 2 : 4) * used`: the
least power of two that is strictly greater than the target (and at
least the minimum 8). -/
theorem C4_grow_policy (d : Dict) (key hash value : Nat) (hInv : DictInv d) :
    ∃ e1, insertdict d key hash value = some e1 ∧
      (e1.used > d.used → e1.fill * 3 ≥ (e1.mask + 1) * 2 →
        ∃ e, PyDict_SetItem d key hash value = some e ∧
          e.mask + 1 = newsizeFor ((if e1.used > 50000 then 2 else 4) * e1.used) ∧
          (if e1.used > 50000 then 2 else 4) * e1.used < e.mask + 1 ∧
          8 ≤ e.mask + 1 ∧ (∃ K, 3 ≤ K ∧ e.mask + 1 = 2 ^ K) ∧
          ∀ K, 3 ≤ K → (if e1.used > 50000 then 2 else 4) * e1.used < 2 ^ K →
            e.mask + 1 ≤ 2 ^ K) := by
  obtain ⟨e1, hins, hmask1, hpre1, hdisj⟩ := insertdict_spec d key hash value hInv
  refine ⟨e1, hins, ?_⟩
  intro hu hload
  have hused1 : e1.used ≤ (if e1.used > 50000 then 2 else 4) * e1.used := by
    split <;> omega
  obtain ⟨e2, hres, hinv2, hperm, hdisj2⟩ := dictresize_spec e1 _ hpre1 hused1
  have hset : PyDict_SetItem d key hash value = some e2 := by
    simp only [PyDict_SetItem, hins]
    split
    · rename_i hcontra
      exact absurd ⟨hu, hload⟩ hcontra
    · rw [hres]
  have hsize : e2.mask + 1 = newsizeFor ((if e1.used > 50000 then 2 else 4) * e1.used) := by
    rcases hdisj2 with ⟨he, hns, hm8⟩ | ⟨hns, _⟩
    · rw [he, hm8, hns, PyDict_MINSIZE]
    · exact hns
  obtain ⟨hgt, h8, K0, hK03, hK0⟩ :=
    newsizeFor_spec ((if e1.used > 50000 then 2 else 4) * e1.used)
  refine ⟨e2, hset, hsize, by omega, by omega, ⟨K0, hK03, by omega⟩, ?_⟩
  intro K hK3 hKlt
  have := newsizeFor_min ((if e1.used > 50000 then 2 else 4) * e1.used) K hK3 hKlt
  omega

theorem C4_witness :
    DictInv growCexDict ∧
    ∃ e1, insertdict growCexDict 13 4 99 = some e1 ∧
      (e1.used > growCexDict.used → e1.fill * 3 ≥ (e1.mask + 1) * 2 →
        ∃ e, PyDict_SetItem growCexDict 13 4 99 = some e ∧
          e.mask + 1 = newsizeFor ((if e1.used > 50000 then 2 else 4) * e1.used) ∧
          (if e1.used > 50000 then 2 else 4) * e1.used < e.mask + 1 ∧
          8 ≤ e.mask + 1 ∧ (∃ K, 3 ≤ K ∧ e.mask + 1 = 2 ^ K) ∧
          ∀ K, 3 ≤ K → (if e1.used > 50000 then 2 else 4) * e1.used < 2 ^ K →
            e.mask + 1 ≤ 2 ^ K) :=
  ⟨⟨⟨⟨3, le_refl 3, rfl⟩, rfl, rfl, rfl⟩, by norm_num [growCexDict]⟩,
    C4_grow_policy growCexDict 13 4 99
      ⟨⟨⟨3, le_refl 3, rfl⟩, rfl, rfl, rfl⟩, by norm_num [growCexDict]⟩⟩

/-- C6: deleting a present key (`PyDict_DelItem`) succeeds, a following
`get` of the same key reports absence, `used` drops by exactly one,
`fill` is unchanged, and the key's slot now holds the Dummy (tombstone)
sentinel with no value. -/
theorem C6_delete_then_get (d : Dict) (hf : Nat → Nat) (key v j : Nat)
    (hWF : DictWF d hf) (hj : j < d.table.length)
    (hslot : d.table.getD j Slot.empty = Slot.occupied key (hf key) v) :
    ∃ e, PyDict_DelItem d key (hf key) = some (e, true) ∧
      PyDict_GetItem e key (hf key) = none ∧
      e.used + 1 = d.used ∧ e.fill = d.fill ∧
      e.table.getD j Slot.empty = Slot.dummy := by
  have hlook := lookdict_finds d hf key (hf key) v j hWF hj hslot
  have hdel : PyDict_DelItem d key (hf key) =
      some (⟨d.mask, d.fill, d.used - 1, d.table.set j Slot.dummy⟩, true) := by
    simp only [PyDict_DelItem, hlook, hslot]
  have h1 : 1 ≤ occCount d.table := one_le_occCount d.table j hj key (hf key) v hslot
  have husedc : d.used = occCount d.table := hWF.1.1.2.2.2
  obtain ⟨e2, b2, heq2, hinv2, _⟩ := PyDict_DelItem_spec d key (hf key) hWF.1
  rw [hdel] at heq2
  have hpair := Option.some_inj.mp heq2
  have he2 : e2 = ⟨d.mask, d.fill, d.used - 1, d.table.set j Slot.dummy⟩ :=
    (congrArg Prod.fst hpair).symm
  rw [he2] at hinv2
  have hno : ∀ i k2 h2 v2,
      i < (d.table.set j Slot.dummy).length →
      (d.table.set j Slot.dummy).getD i Slot.empty = Slot.occupied k2 h2 v2 →
      k2 ≠ key := by
    intro i k2 h2 v2 hilt hget hkk
    by_cases hij : j = i
    · rw [← hij, getD_set_self d.table j Slot.dummy hj] at hget
      exact absurd hget (by simp)
    · rw [getD_set_ne d.table j i Slot.dummy hij] at hget
      have hilt2 : i < d.table.length := by simpa [List.length_set] using hilt
      have := hWF.2.2.1 i j k2 h2 v2 key (hf key) v hilt2 hj hget hslot hkk
      exact hij this.symm
  refine ⟨⟨d.mask, d.fill, d.used - 1, d.table.set j Slot.dummy⟩, hdel, ?_, ?_, rfl, ?_⟩
  · exact get_absent _ key (hf key) hinv2 hno
  · show d.used - 1 + 1 = d.used
    omega
  · show (d.table.set j Slot.dummy).getD j Slot.empty = Slot.dummy
    exact getD_set_self d.table j Slot.dummy hj

theorem C6_witness :
    ∃ e, PyDict_DelItem D1 3 ((fun k => k) 3) = some (e, true) ∧
      PyDict_GetItem e 3 ((fun k => k) 3) = none ∧
      e.used + 1 = D1.used ∧ e.fill = D1.fill ∧
      e.table.getD 3 Slot.empty = Slot.dummy :=
  C6_delete_then_get D1 (fun k => k) 3 42 3 D1_WF (by decide) (by decide)

/-- C9: if a call of `dictiter_iternextkey` sees a `ma_used` different
from the one captured at iterator creation, it reports the
changed-size error and poisons the iterator (`di_used := -1`); the
poisoned state keeps reporting the same error on every further call
(`-1` can never equal a live `ma_used`); and a full undisturbed
iteration yields exactly the occupied keys of the table, in slot order,
with no key skipped or duplicated. -/
theorem C9_iterator_invalidation (d : Dict) (it : dictiterobject) (fuel : Nat)
    (hlen : d.table.length = d.mask + 1) (hfuel : d.mask + 2 ≤ fuel) :
    (it.active = true → it.di_used ≠ (d.used : Int) →
      dictiter_iternextkey d it = (IterResult.sizeError, { it with di_used := -1 })) ∧
    (it.active = true → it.di_used = -1 →
      dictiter_iternextkey d it = (IterResult.sizeError, { it with di_used := -1 })) ∧
    iterRun d (dictiter_new d) fuel = occupiedKeys d.table := by
  refine ⟨?_, ?_, ?_⟩
  · intro ha hne
    rw [dictiter_iternextkey, if_neg (by simp [ha]), if_pos hne]
  · intro ha hm1
    have hne : it.di_used ≠ (d.used : Int) := by
      rw [hm1]
      omega
    rw [dictiter_iternextkey, if_neg (by simp [ha]), if_pos hne]
  · have := iterRun_spec d hlen fuel 0 (d.used : Int) (by omega)
    simpa [dictiter_new] using this

theorem C9_witness :
    ((⟨true, 0, 0, 0⟩ : dictiterobject).active = true →
      (⟨true, 0, 0, 0⟩ : dictiterobject).di_used ≠ (D1.used : Int) →
      dictiter_iternextkey D1 ⟨true, 0, 0, 0⟩ =
        (IterResult.sizeError,
          { (⟨true, 0, 0, 0⟩ : dictiterobject) with di_used := -1 })) ∧
    ((⟨true, 0, 0, 0⟩ : dictiterobject).active = true →
      (⟨true, 0, 0, 0⟩ : dictiterobject).di_used = -1 →
      dictiter_iternextkey D1 ⟨true, 0, 0, 0⟩ =
        (IterResult.sizeError,
          { (⟨true, 0, 0, 0⟩ : dictiterobject) with di_used := -1 })) ∧
    iterRun D1 (dictiter_new D1) 9 = occupiedKeys D1.table :=
  C9_iterator_invalidation D1 ⟨true, 0, 0, 0⟩ 9 (by decide) (by decide)

/-- C10: `PyDict_GetItem` suppresses every error: a failed hash
computation and a comparison that raises during probing both yield the
same `NULL` answer as a genuinely absent key, with the thread's
exception state left clear when the caller had none; and a caller's
already-pending exception is saved and restored unchanged around the
lookup. -/
theorem C10_getitem_suppresses (d : Dict) (key hash : Nat) (pending : Option Nat)
    (hInv : DictInv d)
    (habs : ∀ j k2 h2 v2, j < d.table.length →
      d.table.getD j Slot.empty = Slot.occupied k2 h2 v2 → k2 ≠ key) :
    (∀ cmp, PyDict_GetItem_full d key hash true cmp pending = (none, none)) ∧
    ((PyDict_GetItem_full d key hash false true pending).1 = none ∧
      (PyDict_GetItem_full d key hash false true pending).2 = pending) ∧
    PyDict_GetItem_full d key hash false false pending =
      (PyDict_GetItem d key hash, pending) ∧
    (PyDict_GetItem_full d key hash false false pending).1 = none := by
  have hget : PyDict_GetItem d key hash = none := get_absent d key hash hInv habs
  refine ⟨fun cmp => rfl, ?_, ?_, ?_⟩
  · cases pending <;> exact ⟨rfl, rfl⟩
  · cases pending <;> rfl
  · cases pending <;> simp [PyDict_GetItem_full, hget]

theorem C10_witness :
    (∀ cmp, PyDict_GetItem_full PyDict_New 3 3 true cmp (some 7) = (none, none)) ∧
    ((PyDict_GetItem_full PyDict_New 3 3 false true (some 7)).1 = none ∧
      (PyDict_GetItem_full PyDict_New 3 3 false true (some 7)).2 = some 7) ∧
    PyDict_GetItem_full PyDict_New 3 3 false false (some 7) =
      (PyDict_GetItem PyDict_New 3 3, some 7) ∧
    (PyDict_GetItem_full PyDict_New 3 3 false false (some 7)).1 = none :=
  C10_getitem_suppresses PyDict_New 3 3 (some 7) DictInv_new
    (fun j k2 h2 v2 hj hget => by
      rw [show PyDict_New.table = List.replicate 8 Slot.empty from rfl,
        getD_replicate] at hget
      exact absurd hget (by simp))
